import Mathlib

/-!
Verification of the text-preprocessing pipeline in `src/preprocess.py`.

The Python module is embedded shallowly over `List Char` / `String`:
each regex substitution of the source is realised as an executable
left-to-right scanner with the exact semantics of CPython's `re.sub` /
`re.split` / `str.replace` / `str.strip` on the patterns that occur in
the source (leftmost match, ordered alternation, greedy quantifiers with
backtracking, resumption after the matched span).

Modelling decisions, recorded once here:
* `\s` (and `str.strip`) is the set of Unicode whitespace characters
  CPython treats as whitespace (`isPySpace` below).
* `\w` (used only through `\b`) is approximated by ASCII alphanumerics,
  the underscore and the Cyrillic block U+0400–U+04FF; this covers every
  script the program manipulates (Ukrainian/Russian Cyrillic and Latin).
* `(?i)` case folding is realised by `pyLower`, which lowers ASCII and
  the Cyrillic letters occurring in the program's patterns.
-/

namespace NlpPreprocess

set_option maxRecDepth 100000
set_option maxHeartbeats 1000000

/-- CPython's `\s` on `str` (also the default set of `str.strip`). -/
def isPySpace (c : Char) : Bool :=
  c = ' ' || c = '\t' || c = '\n' || c = '\r' || c = '\x0b' || c = '\x0c' ||
  (0x1c ≤ c.val && c.val ≤ 0x1f) || c.val = 0x85 || c.val = 0xa0 ||
  c.val = 0x1680 || (0x2000 ≤ c.val && c.val ≤ 0x200a) ||
  c.val = 0x2028 || c.val = 0x2029 || c.val = 0x202f || c.val = 0x205f ||
  c.val = 0x3000

/-- ASCII letter. -/
def isAsciiLetter (c : Char) : Bool :=
  ('A' ≤ c && c ≤ 'Z') || ('a' ≤ c && c ≤ 'z')

/-- CPython's `\w`, restricted to the scripts the program manipulates
(ASCII alphanumerics, underscore, and the Cyrillic block). -/
def isWordChar (c : Char) : Bool :=
  isAsciiLetter c || c.isDigit || c = '_' || (0x400 ≤ c.val && c.val ≤ 0x4ff)

/-- `(?i)` case folding for ASCII and the Cyrillic letters used by the
program's patterns. -/
def pyLower (c : Char) : Char :=
  if 'A' ≤ c && c ≤ 'Z' then Char.ofNat (c.toNat + 32)
  else if 0x410 ≤ c.val && c.val ≤ 0x42f then Char.ofNat (c.toNat + 0x20)
  else if c.val = 0x401 then 'ё'
  else if c.val = 0x406 then 'і'
  else if c.val = 0x407 then 'ї'
  else if c.val = 0x404 then 'є'
  else if c.val = 0x490 then 'ґ'
  else c

/-- The class `[А-ЯІЇЄҐ]` of `clean_news_artifacts`. -/
def isUpperCyrUA (c : Char) : Bool :=
  (0x410 ≤ c.val && c.val ≤ 0x42f) || c.val = 0x406 || c.val = 0x407 ||
  c.val = 0x404 || c.val = 0x490

/-- The class `[а-яіїєґ]` of `clean_news_artifacts`. -/
def isLowerCyrUA (c : Char) : Bool :=
  (0x430 ≤ c.val && c.val ≤ 0x44f) || c.val = 0x456 || c.val = 0x457 ||
  c.val = 0x454 || c.val = 0x491

/-- The class `[А-ЯІЇЄҐA-Z]` of the initials pattern in `split_sentences`. -/
def isUpperSeg (c : Char) : Bool :=
  isUpperCyrUA c || ('A' ≤ c && c ≤ 'Z')

/-- Sentence-terminal punctuation `[.!?…]`. -/
def isTerminal (c : Char) : Bool :=
  c = '.' || c = '!' || c = '?' || c = '…'

/-- The lookahead class `[А-ЯІЇЄҐA-Z0-9"«]` of the split pattern. -/
def isTrigger (c : Char) : Bool :=
  isUpperSeg c || c.isDigit || c = '"' || c = '«'

/-- The sentinel string `<DOT>` used by the protect phase. -/
def sentinel : List Char := ['<', 'D', 'O', 'T', '>']

/-- `\b` between an optional previous character and the current one. -/
def wordBoundary (prev : Option Char) (c : Char) : Bool :=
  match prev with
  | Option.none => isWordChar c
  | Option.some p => isWordChar p != isWordChar c

/-! ## Generic `re.sub` scanner for constant replacements

`m prev l` inspects the text at the current scan position (`prev` is the
character immediately before it, for `\b`); `some n` means a match that
consumes `n + 1` characters.  The scan resumes after the matched span,
exactly as `re.sub` does. -/

/-- Left-to-right, non-overlapping substitution with a constant
replacement: the worker.  `skip > 0` means the scanner is inside an
already-replaced span and still has to pass over `skip` characters
(updating the lookbehind character as it goes). -/
def subConstGo (m : Option Char → List Char → Option Nat) (repl : List Char) :
    Nat → Option Char → List Char → List Char
  | _, _, [] => []
  | Nat.succ k, _, c :: cs => subConstGo m repl k (Option.some c) cs
  | 0, prev, c :: cs =>
    match m prev (c :: cs) with
    | Option.some n => repl ++ subConstGo m repl n (Option.some c) cs
    | Option.none => c :: subConstGo m repl 0 (Option.some c) cs

/-- The semantics of `re.sub(pat, repl, s)` for a constant replacement:
scan left to right, replace each match, resume after the matched span. -/
def subConst (m : Option Char → List Char → Option Nat) (repl : List Char)
    (l : List Char) : List Char :=
  subConstGo m repl 0 Option.none l

/-! ## PII patterns (`EMAIL_PATTERN`, `URL_PATTERN`) -/

/-- The class `[A-Za-z0-9._%+-]` (local part of `EMAIL_PATTERN`). -/
def isLocalChar (c : Char) : Bool :=
  isAsciiLetter c || c.isDigit || c = '.' || c = '_' || c = '%' || c = '+' || c = '-'

/-- The class `[A-Za-z0-9.-]` (domain part of `EMAIL_PATTERN`). -/
def isDomChar (c : Char) : Bool :=
  isAsciiLetter c || c.isDigit || c = '.' || c = '-'

/-- The class `[A-Z|a-z]` (TLD part of `EMAIL_PATTERN`; note that the
literal `|` inside the bracket class is a member). -/
def isTldChar (c : Char) : Bool :=
  isAsciiLetter c || c = '|'

/-- `\b` of the email pattern between positions `k - 1` and `k` of `u`
(`k ≥ 1` at every use; at the end of input the boundary holds iff the
last consumed character is a word character). -/
def wbAt (u : List Char) (k : Nat) : Bool :=
  match u.get? (k - 1), u.get? k with
  | Option.some a, Option.some b => isWordChar a != isWordChar b
  | Option.some a, Option.none => isWordChar a
  | _, _ => false

/-- Backtracking search for the TLD `[A-Z|a-z]{2,7}\b`: greedy, so the
lengths 7, 6, …, 2 are tried in that order. -/
def tldTry (u : List Char) : Nat → Option Nat
  | 0 => Option.none
  | Nat.succ m =>
    let k := m + 1
    if k < 2 then Option.none
    else if (u.take k).length = k && (u.take k).all isTldChar && wbAt u k then
      Option.some k
    else tldTry u m

/-- Backtracking over the split of `[A-Za-z0-9.-]+\.` : the greedy domain
run is shortened until the next character is a literal period and the
remainder admits a TLD.  `s` is the text after `@`; the candidate split
points `ℓ` are tried from longest to shortest. -/
def domTry (s : List Char) : Nat → Option (Nat × Nat)
  | 0 => Option.none
  | Nat.succ m =>
    let ℓ := m + 1
    if s.get? ℓ = Option.some '.' then
      match tldTry (s.drop (ℓ + 1)) 7 with
      | Option.some k => Option.some (ℓ, k)
      | Option.none => domTry s m
    else domTry s m

/-- Matcher for `EMAIL_PATTERN = \b[A-Za-z0-9._%+-]+@[A-Za-z0-9.-]+\.[A-Z|a-z]{2,7}\b`.
The local-part run is necessarily maximal (`@` is not in the class), the
domain/TLD split backtracks as `domTry` describes. -/
def emailMatch (prev : Option Char) (l : List Char) : Option Nat :=
  match l with
  | [] => Option.none
  | c :: _ =>
    if wordBoundary prev c then
      let loc := (l.takeWhile isLocalChar).length
      if 1 ≤ loc && l.get? loc = Option.some '@' then
        let s := l.drop (loc + 1)
        let run := (s.takeWhile isDomChar).length
        match domTry s (run - 1) with
        | Option.some (ℓ, k) => Option.some (loc + 1 + ℓ + 1 + k - 1)
        | Option.none => Option.none
      else Option.none
    else Option.none

/-- Matcher for `URL_PATTERN = https?://\S+|www\.\S+|bit\.ly/\S+`.
Alternatives are tried in source order; `s?` is greedy; `\S+` swallows
the maximal non-whitespace run. -/
def urlMatch (_ : Option Char) (l : List Char) : Option Nat :=
  let nsRun : List Char → Nat := fun t => (t.takeWhile (fun c => !isPySpace c)).length
  if "https://".toList.isPrefixOf l && 1 ≤ nsRun (l.drop 8) then
    Option.some (8 + nsRun (l.drop 8) - 1)
  else if "http://".toList.isPrefixOf l && 1 ≤ nsRun (l.drop 7) then
    Option.some (7 + nsRun (l.drop 7) - 1)
  else if "www.".toList.isPrefixOf l && 1 ≤ nsRun (l.drop 4) then
    Option.some (4 + nsRun (l.drop 4) - 1)
  else if "bit.ly/".toList.isPrefixOf l && 1 ≤ nsRun (l.drop 7) then
    Option.some (7 + nsRun (l.drop 7) - 1)
  else Option.none

def emailToken : List Char := "<EMAIL>".toList

def urlToken : List Char := "<URL>".toList

/-- `mask_pii`: emails first, then URLs (source lines 29–33). -/
def mask_piiL (l : List Char) : List Char :=
  subConst urlMatch urlToken (subConst emailMatch emailToken l)

/-! ## Typography (`normalize_typography`) -/

/-- `APOSTROPHES_PATTERN.sub("'", ·)` — a single-character class map. -/
def apoFix (c : Char) : Char :=
  if c = '`' || c = '’' || c = '‘' || c = 'ʼ' then '\'' else c

/-- `QUOTES_PATTERN.sub('"', ·)`. -/
def quoteFix (c : Char) : Char :=
  if c = '«' || c = '»' || c = '“' || c = '”' || c = '„' then '"' else c

/-- `DASHES_PATTERN.sub("-", ·)`. -/
def dashFix (c : Char) : Char :=
  if c = '—' || c = '–' then '-' else c

/-- `normalize_typography` (source lines 22–27). -/
def normalize_typographyL (l : List Char) : List Char :=
  ((l.map apoFix).map quoteFix).map dashFix

/-! ## Whitespace (`clean_whitespace`) -/

/-- `re.sub(r'\s+', ' ', ·)`: every maximal whitespace run becomes one
space.  `prevWs` records whether the previous character was whitespace
(i.e. whether the current run has already emitted its space). -/
def collapseGo (prevWs : Bool) : List Char → List Char
  | [] => []
  | c :: cs =>
    if isPySpace c then
      if prevWs then collapseGo true cs else ' ' :: collapseGo true cs
    else c :: collapseGo false cs

def collapseWs (l : List Char) : List Char := collapseGo false l

/-- Removal of the maximal whitespace suffix (the right half of
`str.strip`). -/
def dropTrailWs : List Char → List Char
  | [] => []
  | c :: cs =>
    let r := dropTrailWs cs
    if r.isEmpty && isPySpace c then [] else c :: r

/-- `str.strip()` with no argument: trim whitespace at both ends. -/
def stripChars (l : List Char) : List Char :=
  dropTrailWs (l.dropWhile isPySpace)

/-- `clean_whitespace` (source lines 35–37). -/
def cleanWhitespaceL (l : List Char) : List Char :=
  stripChars (collapseWs l)

/-! ## News artifacts (`clean_news_artifacts`) -/

/-- `re.sub(r'^\([А-ЯІЇЄҐ][а-яіїєґ]+\)\s*-\s*', '', ·)` — anchored at the
start of the string, so at most one removal. -/
def clean_news_artifactsL (l : List Char) : List Char :=
  match l with
  | '(' :: u :: rest2 =>
    if isUpperCyrUA u then
      let lo := (rest2.takeWhile isLowerCyrUA).length
      if 1 ≤ lo && rest2.get? lo = Option.some ')' then
        let after := (rest2.drop (lo + 1)).dropWhile isPySpace
        match after with
        | '-' :: tail => tail.dropWhile isPySpace
        | _ => l
      else l
    else l
  | _ => l

/-! ## Quote runs and platform noise (pipeline steps 5 and 6) -/

/-- Matcher for `""+` — a maximal run of two or more double quotes. -/
def quotesMatch (_ : Option Char) (l : List Char) : Option Nat :=
  let run := (l.takeWhile (fun c => c = '"')).length
  if 2 ≤ run then Option.some (run - 1) else Option.none

/-- `re.sub(r'""+', '"', ·)` (source line 109). -/
def collapseQuotesL (l : List Char) : List Char :=
  subConst quotesMatch ['"'] l

def instagramPhrase : List Char :=
  "Посмотреть эту публикацию в Instagram".toList

/-- Matcher for the case-insensitive literal Instagram-noise phrase. -/
def instagramMatch (_ : Option Char) (l : List Char) : Option Nat :=
  if (instagramPhrase.map pyLower).isPrefixOf (l.map pyLower) &&
      instagramPhrase.length ≤ l.length then
    Option.some (instagramPhrase.length - 1)
  else Option.none

/-- `re.sub('Посмотреть эту публикацию в Instagram', '', ·, flags=re.IGNORECASE)`. -/
def removeInstagramL (l : List Char) : List Char :=
  subConst instagramMatch [] l

/-! ## The protect phase of `split_sentences` -/

/-- The alternatives of `UA_ABBREVIATIONS`, in source order. -/
def uaAbbreviations : List (List Char) :=
  ["м", "вул", "просп", "пров", "бул", "буд", "кв", "р", "рр", "ім", "о",
   "ст", "тис", "млн", "млрд", "див", "с", "смт", "обл", "т.д", "т.п"].map
    String.toList

/-- Case-insensitive literal alternative test: the text starts with the
(lowercase) pattern `pat` under `pyLower`. -/
def ciStarts : List Char → List Char → Bool
  | [], _ => true
  | _ :: _, [] => false
  | p :: ps, c :: cs => pyLower c = p && ciStarts ps cs

/-- Ordered alternation of `UA_ABBREVIATIONS` at the current position:
the first alternative that matches case-insensitively and is followed by
a literal period wins; the result is the length of the matched group. -/
def findAbbrev (l : List Char) : List (List Char) → Option Nat
  | [] => Option.none
  | a :: rest =>
    if ciStarts a l && l.get? a.length = Option.some '.' then Option.some a.length
    else findAbbrev l rest

/-- `re.sub(UA_ABBREVIATIONS, r'\1<DOT>', ·)` (source line 57), worker:
the matched group is kept with its original case, the trailing period
becomes the sentinel, scanning resumes after the match.  `n > 0` means
`n` characters of a matched span remain: the last one is the period, to
be emitted as the sentinel; the others are group characters, copied
through. -/
def abbrevGo : Nat → Option Char → List Char → List Char
  | _, _, [] => []
  | 1, _, c :: cs => sentinel ++ abbrevGo 0 (Option.some c) cs
  | Nat.succ (Nat.succ k), _, c :: cs => c :: abbrevGo (k + 1) (Option.some c) cs
  | 0, prev, c :: cs =>
    if wordBoundary prev c then
      match findAbbrev (c :: cs) uaAbbreviations with
      | Option.some k => c :: abbrevGo k (Option.some c) cs
      | Option.none => c :: abbrevGo 0 (Option.some c) cs
    else c :: abbrevGo 0 (Option.some c) cs

/-- The abbreviation pass of the protect phase. -/
def abbrevSub (l : List Char) : List Char := abbrevGo 0 Option.none l

/-- `re.sub(r'(\d)\.(\d)', r'\1<DOT>\2', ·)` (source line 60): both
digits are consumed by the match, so scanning resumes after the second
digit. -/
def decimalProtect : List Char → List Char
  | [] => []
  | [a] => [a]
  | [a, b] => [a, b]
  | a :: b :: c :: rest =>
    if b = '.' && a.isDigit && c.isDigit then
      a :: '<' :: 'D' :: 'O' :: 'T' :: '>' :: c :: decimalProtect rest
    else a :: decimalProtect (b :: c :: rest)

/-- `re.sub(r'\b([А-ЯІЇЄҐA-Z])\.', r'\1<DOT>', ·)` (source line 63). -/
def initialsSub : Option Char → List Char → List Char
  | _, [] => []
  | _, [c] => [c]
  | prev, c :: d :: cs =>
    if wordBoundary prev c && isUpperSeg c && d = '.' then
      c :: sentinel ++ initialsSub (Option.some '.') cs
    else c :: initialsSub (Option.some c) (d :: cs)

/-- The protect phase: abbreviations, then decimals, then initials
(source lines 55–63). -/
def protectText (l : List Char) : List Char :=
  initialsSub Option.none (decimalProtect (abbrevSub l))

/-! ## The split and restore phases of `split_sentences` -/

/-- Lookahead `(?=[А-ЯІЇЄҐA-Z0-9"«])` at the head of the remaining text. -/
def isTriggerHead (l : List Char) : Bool :=
  match l.head? with
  | Option.some c => isTrigger c
  | Option.none => false

/-- `re.split(r'(?<=[.!?…])\s+(?=[А-ЯІЇЄҐA-Z0-9"«])', ·)`: a maximal
whitespace run is a separator exactly when the character before it is
terminal punctuation and the first character after it is in the
lookahead class.  (A `\s+` match starting inside a whitespace run would
have a whitespace lookbehind, never terminal punctuation, so splits can
only happen at run starts.)  `cur` is the current segment before the
pending whitespace run `pend`; `termBefore` says whether the last
non-whitespace character seen is terminal punctuation. -/
def splitGo (termBefore : Bool) (cur pend : List Char) : List Char → List (List Char)
  | [] => [cur ++ pend]
  | c :: cs =>
    if isPySpace c then splitGo termBefore cur (pend ++ [c]) cs
    else if termBefore && !pend.isEmpty && isTrigger c then
      cur :: splitGo (isTerminal c) [c] [] cs
    else splitGo (isTerminal c) (cur ++ pend ++ [c]) [] cs

/-- `s.replace('<DOT>', '.')`: left-to-right, non-overlapping. -/
def restoreDots : List Char → List Char
  | '<' :: 'D' :: 'O' :: 'T' :: '>' :: rest => '.' :: restoreDots rest
  | c :: cs => c :: restoreDots cs
  | [] => []

/-- `split_sentences` (source lines 48–79) over `List Char`. -/
def split_sentencesL (text : List Char) : List (List Char) :=
  if text.isEmpty then []
  else
    let protectedText := protectText text
    let sentencesRaw := splitGo false [] [] protectedText
    let sentences :=
      (sentencesRaw.map fun s => stripChars (restoreDots s)).filter fun s => !s.isEmpty
    if sentences.isEmpty then [text] else sentences

/-! ## The pipeline (`preprocess`) -/

/-- A Python value, as far as `preprocess` can observe one: the guard
distinguishes strings from everything else and otherwise only uses
truthiness and `str(·)`. -/
inductive PyVal where
  | none
  | str (s : String)
  | int (n : Int)
  | bool (b : Bool)
deriving DecidableEq

/-- Python truthiness of the embedded values. -/
def pyTruthy : PyVal → Bool
  | PyVal.none => false
  | PyVal.str s => !s.isEmpty
  | PyVal.int n => n != 0
  | PyVal.bool b => b

/-- Python `str(·)` of the embedded values. -/
def pyStr : PyVal → String
  | PyVal.none => "None"
  | PyVal.str s => s
  | PyVal.int n => toString n
  | PyVal.bool b => if b then "True" else "False"

def pyIsStr : PyVal → Bool
  | PyVal.str _ => true
  | _ => false

def pyAsStr : PyVal → String
  | PyVal.str s => s
  | _ => ""

/-- The result dictionary of `preprocess`. -/
structure ResultRecord where
  raw : String
  clean : String
  sentences : List String
deriving DecidableEq

/-- Modelled from the spec: the external encoding-repair collaborator
(`ftfy.fix_text`, out of scope per the spec's §1) is assumed total and
content-preserving, and is embedded as the identity. -/
def fix_encodingL (l : List Char) : List Char := l

/-- Pipeline steps 1–6 (everything before `mask_pii`): encoding repair,
news artifacts, typography, `'|' → ' '`, duplicated quotes, Instagram
noise. -/
def preMaskStage (s : String) : List Char :=
  removeInstagramL (collapseQuotesL
    ((normalize_typographyL (clean_news_artifactsL (fix_encodingL s.toList))).map
      fun c => if c = '|' then ' ' else c))

/-- `preprocess` (source lines 82–127). -/
def preprocess (text : PyVal) : ResultRecord :=
  if !pyIsStr text || (stripChars (pyAsStr text).toList).isEmpty then
    { raw := if pyTruthy text then pyStr text else ""
      clean := ""
      sentences := [] }
  else
    let s := pyAsStr text
    let cleanL := cleanWhitespaceL (mask_piiL (preMaskStage s))
    { raw := s
      clean := String.mk cleanL
      sentences := (split_sentencesL cleanL).map String.mk }

/-! ## String-level wrappers keeping the source's names -/

def split_sentences (s : String) : List String :=
  (split_sentencesL s.toList).map String.mk

def normalize_typography (s : String) : String :=
  String.mk (normalize_typographyL s.toList)

def clean_whitespace (s : String) : String :=
  String.mk (cleanWhitespaceL s.toList)

def mask_pii (s : String) : String :=
  String.mk (mask_piiL s.toList)

/-- `str.strip()` at the `String` level. -/
def pyStrip (s : String) : String :=
  String.mk (stripChars s.toList)

/-! ## Predicates used in the statements of the claims -/

/-- `pat` occurs as a contiguous subsequence of the text (Python's
`pat in s`). -/
def containsSeq (pat : List Char) : List Char → Bool
  | [] => pat.isEmpty
  | c :: cs => pat.isPrefixOf (c :: cs) || containsSeq pat cs

/-- Scanner for the sentence-split pattern on raw text: `true` iff
somewhere a terminal-punctuation character is followed by a nonempty
whitespace run whose first following character is in the lookahead
class.  `termBefore`: the last non-whitespace character seen is
terminal punctuation; `pendWs`: the scan is inside a whitespace run. -/
def hasTrigAux (termBefore pendWs : Bool) : List Char → Bool
  | [] => false
  | c :: cs =>
    if isPySpace c then hasTrigAux termBefore true cs
    else (termBefore && pendWs && isTrigger c) || hasTrigAux (isTerminal c) false cs

/-- The split pattern `(?<=[.!?…])\s+(?=[А-ЯІЇЄҐA-Z0-9"«])` matches
somewhere in the text. -/
def hasTrig (l : List Char) : Bool := hasTrigAux false false l

/-- No two adjacent whitespace characters. -/
def noWsRun : List Char → Bool
  | a :: b :: rest => !(isPySpace a && isPySpace b) && noWsRun (b :: rest)
  | _ => true

def headNotWs : List Char → Bool
  | [] => true
  | c :: _ => !isPySpace c

def lastNotWs : List Char → Bool
  | [] => true
  | c :: cs => if cs.isEmpty then !isPySpace c else lastNotWs cs

/-- Whitespace-normal text: every whitespace character is a plain space,
no two adjacent, none at either end.  Exactly the strings on which
`clean_whitespace` is the identity. -/
def wsNormal (l : List Char) : Bool :=
  l.all (fun c => !isPySpace c || c = ' ') && noWsRun l && headNotWs l && lastNotWs l

/-- `DotExp t u`: `u` is `t` with some of its periods expanded to the
sentinel `<DOT>`.  Every pass of the protect phase produces an
expansion of its input, and expansions compose. -/
inductive DotExp : List Char → List Char → Prop
  | nil : DotExp [] []
  | keep (c : Char) {t u : List Char} : DotExp t u → DotExp (c :: t) (c :: u)
  | dot {t u : List Char} :
      DotExp t u → DotExp ('.' :: t) ('<' :: 'D' :: 'O' :: 'T' :: '>' :: u)

/-! # Theorems -/

/-! ## Whitespace lemmas -/

theorem strToList_mk (l : List Char) : (String.mk l).toList = l := rfl

theorem noWsRun_tail {c : Char} {cs : List Char} (h : noWsRun (c :: cs) = true) :
    noWsRun cs = true := by
  cases cs with
  | nil => rfl
  | cons d ds =>
    have h' : (isPySpace c = false ∨ isPySpace d = false) ∧ noWsRun (d :: ds) = true := by
      simpa [noWsRun, Bool.and_eq_true] using h
    exact h'.2

theorem noWsRun_cons_of_headNotWs {x : Char} {xs : List Char}
    (h1 : headNotWs xs = true) (h2 : noWsRun xs = true) : noWsRun (x :: xs) = true := by
  cases xs with
  | nil => rfl
  | cons d ds =>
    simp only [headNotWs, Bool.not_eq_true'] at h1
    simp [noWsRun, h1, h2]

theorem noWsRun_cons_of_not_ws {x : Char} {xs : List Char}
    (h1 : isPySpace x = false) (h2 : noWsRun xs = true) : noWsRun (x :: xs) = true := by
  cases xs with
  | nil => rfl
  | cons d ds => simp [noWsRun, h1, h2]

theorem collapseGo_normal : ∀ (l : List Char) (b : Bool),
    (∀ c ∈ collapseGo b l, isPySpace c = false ∨ c = ' ') ∧
    noWsRun (collapseGo b l) = true ∧
    (b = true → headNotWs (collapseGo b l) = true)
  | [], b => by simp [collapseGo, noWsRun, headNotWs]
  | c :: cs, b => by
    by_cases hc : isPySpace c = true
    · cases b with
      | true =>
        have ih := collapseGo_normal cs true
        simpa [collapseGo, hc] using ih
      | false =>
        have ih := collapseGo_normal cs true
        refine ⟨?_, ?_, ?_⟩
        · intro x hx
          simp only [collapseGo, hc, if_true] at hx
          rcases List.mem_cons.mp hx with rfl | hx
          · exact Or.inr rfl
          · exact ih.1 x hx
        · simp only [collapseGo, hc, if_true]
          exact noWsRun_cons_of_headNotWs (ih.2.2 rfl) ih.2.1
        · intro hfalse; cases hfalse
    · have hc' : isPySpace c = false := by simpa using hc
      have ih := collapseGo_normal cs false
      refine ⟨?_, ?_, ?_⟩
      · intro x hx
        simp only [collapseGo, hc', if_false, Bool.false_eq_true] at hx
        rcases List.mem_cons.mp hx with rfl | hx
        · exact Or.inl hc'
        · exact ih.1 x hx
      · simp only [collapseGo, hc', Bool.false_eq_true, if_false]
        exact noWsRun_cons_of_not_ws hc' ih.2.1
      · intro _
        simp [collapseGo, hc', headNotWs]

theorem collapseGo_fix : ∀ (l : List Char) (b : Bool),
    (∀ c ∈ l, isPySpace c = false ∨ c = ' ') → noWsRun l = true →
    (b = true → headNotWs l = true) → collapseGo b l = l
  | [], b, _, _, _ => by simp [collapseGo]
  | c :: cs, b, hall, hrun, hhead => by
    by_cases hc : isPySpace c = true
    · have hsp : c = ' ' := by
        rcases hall c (List.mem_cons_self ..) with h | h
        · rw [hc] at h; cases h
        · exact h
      have hb : b = false := by
        cases b with
        | false => rfl
        | true =>
          have := hhead rfl
          simp [headNotWs, hc] at this
      subst hb
      have hcs : headNotWs cs = true := by
        cases cs with
        | nil => rfl
        | cons d ds =>
          have h' : (isPySpace c = false ∨ isPySpace d = false) ∧ noWsRun (d :: ds) = true := by
            simpa [noWsRun, Bool.and_eq_true] using hrun
          rcases h'.1 with hd | hd
          · rw [hc] at hd; cases hd
          · simp [headNotWs, hd]
      have ih := collapseGo_fix cs true
        (fun x hx => hall x (List.mem_cons_of_mem _ hx)) (noWsRun_tail hrun)
        (fun _ => hcs)
      rw [show collapseGo false (c :: cs) = ' ' :: collapseGo true cs by
        simp [collapseGo, hc]]
      rw [ih, hsp]
    · have hc' : isPySpace c = false := by simpa using hc
      have ih := collapseGo_fix cs false
        (fun x hx => hall x (List.mem_cons_of_mem _ hx)) (noWsRun_tail hrun)
        (fun hff => by cases hff)
      simp [collapseGo, hc', ih]

theorem headNotWs_dropWhile (l : List Char) :
    headNotWs (l.dropWhile isPySpace) = true := by
  induction l with
  | nil => rfl
  | cons c cs ih =>
    by_cases hc : isPySpace c = true
    · simpa [List.dropWhile, hc] using ih
    · have hc' : isPySpace c = false := by simpa using hc
      simp [List.dropWhile, hc', headNotWs]

theorem dropWhile_eq_self_of_headNotWs {l : List Char}
    (h : headNotWs l = true) : l.dropWhile isPySpace = l := by
  cases l with
  | nil => rfl
  | cons c cs =>
    simp only [headNotWs, Bool.not_eq_true'] at h
    simp [List.dropWhile, h]

theorem noWsRun_dropWhile {l : List Char} (h : noWsRun l = true) :
    noWsRun (l.dropWhile isPySpace) = true := by
  induction l with
  | nil => exact h
  | cons c cs ih =>
    by_cases hc : isPySpace c = true
    · simpa [List.dropWhile, hc] using ih (noWsRun_tail h)
    · have hc' : isPySpace c = false := by simpa using hc
      simpa [List.dropWhile, hc'] using h

theorem dropTrailWs_cases (c : Char) (cs : List Char) :
    dropTrailWs (c :: cs) = [] ∨ dropTrailWs (c :: cs) = c :: dropTrailWs cs := by
  simp only [dropTrailWs]
  split
  · exact Or.inl rfl
  · exact Or.inr rfl

theorem mem_dropTrailWs {x : Char} : ∀ {l : List Char}, x ∈ dropTrailWs l → x ∈ l
  | [], h => h
  | c :: cs, h => by
    rcases dropTrailWs_cases c cs with he | he
    · rw [he] at h; cases h
    · rw [he] at h
      rcases List.mem_cons.mp h with rfl | h
      · exact List.mem_cons_self ..
      · exact List.mem_cons_of_mem _ (mem_dropTrailWs h)

theorem noWsRun_dropTrailWs : ∀ {l : List Char}, noWsRun l = true →
    noWsRun (dropTrailWs l) = true
  | [], _ => rfl
  | c :: cs, h => by
    rcases dropTrailWs_cases c cs with he | he
    · rw [he]; rfl
    · rw [he]
      have ih := noWsRun_dropTrailWs (noWsRun_tail h)
      cases cs with
      | nil => simp [dropTrailWs, noWsRun]
      | cons d ds =>
        rcases dropTrailWs_cases d ds with he2 | he2
        · rw [he2]; rfl
        · rw [he2]
          rw [he2] at ih
          simp only [noWsRun, Bool.and_eq_true] at h ⊢
          exact ⟨h.1, ih⟩

theorem lastNotWs_dropTrailWs : ∀ (l : List Char),
    lastNotWs (dropTrailWs l) = true
  | [] => rfl
  | c :: cs => by
    have ih := lastNotWs_dropTrailWs cs
    simp only [dropTrailWs]
    split
    · rfl
    · rename_i hcond
      cases hdt : dropTrailWs cs with
      | nil =>
        rw [hdt] at hcond
        simp only [List.isEmpty_nil, Bool.true_and] at hcond
        simp only [lastNotWs, List.isEmpty_nil, if_true, Bool.not_eq_true']
        simpa using hcond
      | cons d ds =>
        rw [hdt] at ih
        simp only [lastNotWs, List.isEmpty_cons, Bool.false_eq_true, if_false]
        exact ih

theorem dropTrailWs_eq_self_of_lastNotWs : ∀ {l : List Char},
    lastNotWs l = true → dropTrailWs l = l
  | [], _ => rfl
  | c :: cs, h => by
    cases cs with
    | nil =>
      simp only [lastNotWs, List.isEmpty_nil, if_true, Bool.not_eq_true'] at h
      simp [dropTrailWs, h]
    | cons d ds =>
      have hlast : lastNotWs (d :: ds) = true := by
        simpa [lastNotWs] using h
      have ih := dropTrailWs_eq_self_of_lastNotWs hlast
      have step : dropTrailWs (c :: d :: ds) =
          if (dropTrailWs (d :: ds)).isEmpty && isPySpace c then []
          else c :: dropTrailWs (d :: ds) := rfl
      rw [step, ih]
      simp

theorem headNotWs_dropTrailWs {l : List Char} (h : headNotWs l = true) :
    headNotWs (dropTrailWs l) = true := by
  cases l with
  | nil => rfl
  | cons c cs =>
    rcases dropTrailWs_cases c cs with he | he
    · rw [he]; rfl
    · rw [he]
      simpa [headNotWs] using h

theorem wsNormal_cleanWs (l : List Char) :
    wsNormal (cleanWhitespaceL l) = true := by
  have hc := collapseGo_normal l false
  set m := collapseGo false l with hm
  have h1run : noWsRun (m.dropWhile isPySpace) = true := noWsRun_dropWhile hc.2.1
  have h1head : headNotWs (m.dropWhile isPySpace) = true := headNotWs_dropWhile m
  have h1all : ∀ c ∈ m.dropWhile isPySpace, isPySpace c = false ∨ c = ' ' :=
    fun c hcm => hc.1 c ((List.dropWhile_sublist _).subset hcm)
  have h2run := noWsRun_dropTrailWs h1run
  have h2head := headNotWs_dropTrailWs h1head
  have h2last := lastNotWs_dropTrailWs (m.dropWhile isPySpace)
  have h2all : ∀ c ∈ dropTrailWs (m.dropWhile isPySpace),
      isPySpace c = false ∨ c = ' ' := fun c hcm => h1all c (mem_dropTrailWs hcm)
  show wsNormal (dropTrailWs (m.dropWhile isPySpace)) = true
  simp only [wsNormal, Bool.and_eq_true, List.all_eq_true]
  refine ⟨⟨⟨?_, h2run⟩, h2head⟩, h2last⟩
  intro c hcm
  rcases h2all c hcm with h | h
  · simp [h]
  · simp [h]

theorem cleanWs_of_wsNormal {l : List Char} (h : wsNormal l = true) :
    cleanWhitespaceL l = l := by
  simp only [wsNormal, Bool.and_eq_true, List.all_eq_true] at h
  obtain ⟨⟨⟨hall, hrun⟩, hhead⟩, hlast⟩ := h
  have hall' : ∀ c ∈ l, isPySpace c = false ∨ c = ' ' := by
    intro c hcm
    have := hall c hcm
    rcases Bool.eq_false_or_eq_true (isPySpace c) with hws | hws
    · simp only [hws, Bool.not_true, Bool.false_or] at this
      exact Or.inr (by simpa using this)
    · exact Or.inl hws
  have h1 : collapseGo false l = l := collapseGo_fix l false hall' hrun (fun hff => by cases hff)
  show dropTrailWs ((collapseGo false l).dropWhile isPySpace) = l
  rw [h1, dropWhile_eq_self_of_headNotWs hhead, dropTrailWs_eq_self_of_lastNotWs hlast]

/-! ## Typography lemmas -/

theorem typo_point (c : Char) :
    dashFix (quoteFix (apoFix (dashFix (quoteFix (apoFix c))))) =
      dashFix (quoteFix (apoFix c)) := by
  by_cases h1 : c = '`' ∨ c = '’' ∨ c = '‘' ∨ c = 'ʼ'
  · rcases h1 with rfl | rfl | rfl | rfl <;> decide
  · by_cases h2 : c = '«' ∨ c = '»' ∨ c = '“' ∨ c = '”' ∨ c = '„'
    · rcases h2 with rfl | rfl | rfl | rfl | rfl <;> decide
    · by_cases h3 : c = '—' ∨ c = '–'
      · rcases h3 with rfl | rfl <;> decide
      · push_neg at h1 h2 h3
        obtain ⟨n1, n2, n3, n4⟩ := h1
        obtain ⟨m1, m2, m3, m4, m5⟩ := h2
        obtain ⟨d1, d2⟩ := h3
        simp [apoFix, quoteFix, dashFix, n1, n2, n3, n4, m1, m2, m3, m4, m5, d1, d2]

/-! ## C8 — idempotence of typography and whitespace normalization -/

/-- C8: `normalize_typography` and `clean_whitespace` are idempotent:
applying either twice equals one application. -/
theorem claim_C8_idempotence (s : String) :
    normalize_typography (normalize_typography s) = normalize_typography s ∧
    clean_whitespace (clean_whitespace s) = clean_whitespace s := by
  have h1 : ∀ (l : List Char),
      normalize_typographyL (normalize_typographyL l) = normalize_typographyL l := by
    intro l
    unfold normalize_typographyL
    simp only [List.map_map]
    apply List.map_congr_left
    intro c _
    simp only [Function.comp]
    exact typo_point c
  constructor
  · simp only [normalize_typography, strToList_mk]
    exact congrArg String.mk (h1 s.toList)
  · simp only [clean_whitespace, strToList_mk]
    exact congrArg String.mk (cleanWs_of_wsNormal (wsNormal_cleanWs s.toList))

/-! ## C10 — `clean` is whitespace-normal -/

/-- C10: for every input, the `clean` field of the result is
whitespace-normal — no leading or trailing whitespace and no run of two
or more whitespace characters — equivalently, a fixed point of
`clean_whitespace`; this includes the degenerate branch where `clean`
is empty. -/
theorem claim_C10_clean_wsNormal (v : PyVal) :
    wsNormal (preprocess v).clean.toList = true ∧
    clean_whitespace (preprocess v).clean = (preprocess v).clean := by
  have key : ∀ r : ResultRecord, preprocess v = r →
      wsNormal r.clean.toList = true ∧ clean_whitespace r.clean = r.clean := by
    intro r hr
    unfold preprocess at hr
    split at hr
    · rw [← hr]
      constructor
      · show wsNormal ("" : String).toList = true
        decide
      · show clean_whitespace "" = ""
        decide
    · rw [← hr]
      refine ⟨?_, ?_⟩
      · rw [strToList_mk]
        exact wsNormal_cleanWs _
      · show String.mk (cleanWhitespaceL (String.mk _).toList) = _
        rw [strToList_mk, cleanWs_of_wsNormal (wsNormal_cleanWs _)]
  exact key (preprocess v) rfl

/-! ## C2 — abbreviation periods do not split sentences -/

/-- C2: on `"Зустріч відбудеться у м. Львів. Всі раді."` the pipeline
returns exactly two sentences; the first ends with `"м. Львів."` — the
period after the abbreviation token `м` (matched case-insensitively as
a whole word, token text preserved) does not split, while the period
after `Львів` does. -/
theorem claim_C2_abbreviation_two_sentences :
    (preprocess (PyVal.str "Зустріч відбудеться у м. Львів. Всі раді.")).sentences =
      ["Зустріч відбудеться у м. Львів.", "Всі раді."] ∧
    List.isSuffixOf "м. Львів.".toList "Зустріч відбудеться у м. Львів.".toList = true := by
  decide

/-! ## C1 — sentence reconstruction (code bug: the sentinel collides) -/

/-- C1 (failing input): on the input `"a<DOT>b"` — accepted by
`preprocess` — the restore phase turns the pre-existing text `<DOT>`
into a period, so joining the sentences with single spaces yields
`"a.b"`, which loses and alters non-whitespace characters of
`clean = "a<DOT>b"`.  The sentinel is not outside the input alphabet,
contradicting the claimed byte-for-byte restoration. -/
theorem claim_C1_sentinel_collision :
    (preprocess (PyVal.str "a<DOT>b")).clean = "a<DOT>b" ∧
    (preprocess (PyVal.str "a<DOT>b")).sentences = ["a.b"] ∧
    String.intercalate " " (preprocess (PyVal.str "a<DOT>b")).sentences ≠
      (preprocess (PyVal.str "a<DOT>b")).clean := by
  decide

/-! ## C3 — decimal periods (corrected: overlapping matches) -/

/-- C3 (counterexample): in `"1.2.3"` the second internal period stands
between the digits `2` and `3`, yet the protect phase leaves it
unreplaced: `re.sub` consumed the `2` as part of the first match
`1.2`, so the overlapping second occurrence is not matched. -/
theorem claim_C3_cex :
    decimalProtect "1.2.3".toList = "1<DOT>2.3".toList ∧
    protectText "1.2.3".toList = "1<DOT>2.3".toList ∧
    containsSeq ['2', '.', '3'] (protectText "1.2.3".toList) = true := by
  decide

/-! ## C6 — degenerate inputs (corrected: falsy non-strings render as "") -/

/-- C6 (counterexample): for the non-string input `0` the guard branch
returns `raw = ""`, not the textual rendering `str(0) = "0"` — the code
renders every falsy input as the empty string, not only `None`. -/
theorem claim_C6_cex :
    (preprocess (PyVal.int 0)).raw = "" ∧ pyStr (PyVal.int 0) = "0" ∧
    (preprocess (PyVal.int 0)).raw ≠ pyStr (PyVal.int 0) := by
  decide

/-- C6 (amended): for every input that is not a string, or whose text
strips to empty, `preprocess` returns `clean = ""`, `sentences = []`,
and `raw` equal to `str(input)` when the input is truthy and to the
empty string when it is falsy (`None`, `0`, `False`, `""`). -/
theorem claim_C6_degenerate (v : PyVal)
    (h : pyIsStr v = false ∨ (stripChars (pyAsStr v).toList).isEmpty = true) :
    preprocess v =
      { raw := if pyTruthy v then pyStr v else "", clean := "", sentences := [] } := by
  unfold preprocess
  rcases h with h | h
  · rw [h]
    simp
  · rw [h]
    simp

/-- C6 (witness): the amended statement applied to `None` and to
`"   "`. -/
theorem claim_C6_witness :
    preprocess PyVal.none = { raw := "", clean := "", sentences := [] } ∧
    preprocess (PyVal.str "   ") = { raw := "   ", clean := "", sentences := [] } := by
  constructor
  · exact (claim_C6_degenerate PyVal.none (Or.inl rfl)).trans (by decide)
  · exact (claim_C6_degenerate (PyVal.str "   ") (Or.inr (by decide))).trans (by decide)

/-! ## C9 — totality and determinism -/

/-- C9: `preprocess` is a total function of its input — every value
produces a result record (the embedding is a total Lean function: no
exceptional exit exists), and the result is unique, so two runs on the
same input agree. -/
theorem claim_C9_total_deterministic (v : PyVal) :
    ∃ r : ResultRecord, preprocess v = r ∧
      ∀ r' : ResultRecord, preprocess v = r' → r' = r :=
  ⟨preprocess v, rfl, fun _ h => h.symm⟩

/-- C9 (witness): instantiated at `None`. -/
theorem claim_C9_witness :
    ∃ r : ResultRecord, preprocess PyVal.none = r ∧
      ∀ r' : ResultRecord, preprocess PyVal.none = r' → r' = r :=
  claim_C9_total_deterministic PyVal.none

/-! ## `containsSeq` toolkit -/

theorem collapseGo_cons_nonws {c : Char} (hc : isPySpace c = false) (b : Bool)
    (cs : List Char) : collapseGo b (c :: cs) = c :: collapseGo false cs := by
  simp [collapseGo, hc]

theorem isPrefixOf_self_append : ∀ (p t : List Char), p.isPrefixOf (p ++ t) = true
  | [], t => by cases t <;> rfl
  | q :: qs, t => by
    simp only [List.cons_append, List.isPrefixOf, beq_self_eq_true, Bool.true_and]
    exact isPrefixOf_self_append qs t

theorem isPrefixOf_ex : ∀ {p l : List Char}, p.isPrefixOf l = true → ∃ t, l = p ++ t
  | [], l, _ => ⟨l, rfl⟩
  | q :: qs, [], h => by cases h
  | q :: qs, c :: cs, h => by
    simp only [List.isPrefixOf, Bool.and_eq_true, beq_iff_eq] at h
    obtain ⟨t, ht⟩ := isPrefixOf_ex h.2
    exact ⟨t, by rw [List.cons_append, ← ht, h.1]⟩

theorem containsSeq_here : ∀ (p t : List Char), containsSeq p (p ++ t) = true
  | [], [] => rfl
  | [], c :: cs => by simp [containsSeq, List.isPrefixOf]
  | q :: qs, t => by
    simp only [List.cons_append, containsSeq, Bool.or_eq_true]
    exact Or.inl (by simpa using isPrefixOf_self_append (q :: qs) t)

theorem containsSeq_cons {p t : List Char} (c : Char) (h : containsSeq p t = true) :
    containsSeq p (c :: t) = true := by
  simp only [containsSeq, Bool.or_eq_true]
  exact Or.inr h

theorem containsSeq_append_left : ∀ (x : List Char) {p t : List Char},
    containsSeq p t = true → containsSeq p (x ++ t) = true
  | [], _, _, h => h
  | c :: x', p, t, h => by
    simpa using containsSeq_cons c (containsSeq_append_left x' h)

theorem containsSeq_middle (x p y : List Char) : containsSeq p (x ++ p ++ y) = true := by
  rw [List.append_assoc]
  exact containsSeq_append_left x (containsSeq_here p y)

theorem containsSeq_ex : ∀ {l p : List Char}, containsSeq p l = true →
    ∃ x y, l = x ++ p ++ y
  | [], p, h => by
    have hp : p = [] := by
      cases p with
      | nil => rfl
      | cons q qs => cases h
    exact ⟨[], [], by simp [hp]⟩
  | c :: cs, p, h => by
    simp only [containsSeq, Bool.or_eq_true] at h
    rcases h with h | h
    · obtain ⟨t, ht⟩ := isPrefixOf_ex h
      exact ⟨[], t, by simpa using ht⟩
    · obtain ⟨x, y, hxy⟩ := containsSeq_ex h
      exact ⟨c :: x, y, by simp [hxy]⟩

/-! ## The generic `re.sub` scanner either leaves the text unchanged or
emits its replacement token -/

theorem subConstGo_self_or_contains (m : Option Char → List Char → Option Nat)
    (repl : List Char) : ∀ (l : List Char) (prev : Option Char),
    subConstGo m repl 0 prev l = l ∨
      containsSeq repl (subConstGo m repl 0 prev l) = true
  | [], _ => Or.inl rfl
  | c :: cs, prev => by
    cases hm : m prev (c :: cs) with
    | some n =>
      right
      simp only [subConstGo, hm]
      exact containsSeq_here repl _
    | none =>
      rcases subConstGo_self_or_contains m repl cs (Option.some c) with he | he
      · left
        simp only [subConstGo, hm, he]
      · right
        simp only [subConstGo, hm]
        exact containsSeq_cons c he

theorem subConst_self_or_contains (m : Option Char → List Char → Option Nat)
    (repl : List Char) (l : List Char) :
    subConst m repl l = l ∨ containsSeq repl (subConst m repl l) = true :=
  subConstGo_self_or_contains m repl l Option.none

/-! ## A whitespace-free token survives `clean_whitespace` -/

theorem collapseGo_nonws_app : ∀ (q t : List Char) (b : Bool),
    q ≠ [] → (∀ c ∈ q, isPySpace c = false) →
    collapseGo b (q ++ t) = q ++ collapseGo false t
  | [], _, _, hq, _ => absurd rfl hq
  | c :: q', t, b, _, hnw => by
    have hc : isPySpace c = false := hnw c (List.mem_cons_self ..)
    rcases q' with _ | ⟨d, q''⟩
    · simp [collapseGo, hc]
    · have ih := collapseGo_nonws_app (d :: q'') t false (by simp)
        (fun x hx => hnw x (List.mem_cons_of_mem _ hx))
      calc collapseGo b ((c :: d :: q'') ++ t)
          = c :: collapseGo false (d :: q'' ++ t) := by
            simpa using collapseGo_cons_nonws hc b (d :: q'' ++ t)
        _ = c :: (d :: q'' ++ collapseGo false t) := by rw [ih]
        _ = (c :: d :: q'') ++ collapseGo false t := by simp


theorem collapseGo_token : ∀ (x : List Char) (b : Bool) (p y : List Char),
    p ≠ [] → (∀ c ∈ p, isPySpace c = false) →
    containsSeq p (collapseGo b (x ++ p ++ y)) = true
  | [], b, p, y, hp, hnw => by
    rw [List.nil_append, collapseGo_nonws_app p y b hp hnw]
    exact containsSeq_here p _
  | c :: x', b, p, y, hp, hnw => by
    by_cases hc : isPySpace c = true
    · cases b with
      | true =>
        have ih := collapseGo_token x' true p y hp hnw
        simpa [collapseGo, hc] using ih
      | false =>
        have ih := collapseGo_token x' true p y hp hnw
        have hstep : collapseGo false ((c :: x') ++ p ++ y) =
            ' ' :: collapseGo true (x' ++ p ++ y) := by
          simp [collapseGo, hc]
        rw [hstep]
        exact containsSeq_cons ' ' ih
    · have hc' : isPySpace c = false := by simpa using hc
      have ih := collapseGo_token x' false p y hp hnw
      have hstep : collapseGo b ((c :: x') ++ p ++ y) =
          c :: collapseGo false (x' ++ p ++ y) := by
        simpa using collapseGo_cons_nonws hc' b (x' ++ p ++ y)
      rw [hstep]
      exact containsSeq_cons c ih

theorem dropWhile_token : ∀ {l p : List Char},
    p ≠ [] → (∀ c ∈ p, isPySpace c = false) → containsSeq p l = true →
    containsSeq p (l.dropWhile isPySpace) = true
  | [], p, hp, _, h => by
    cases p with
    | nil => exact absurd rfl hp
    | cons q qs => cases h
  | c :: cs, p, hp, hnw, h => by
    by_cases hc : isPySpace c = true
    · have hrest : containsSeq p cs = true := by
        simp only [containsSeq, Bool.or_eq_true] at h
        rcases h with h | h
        · exfalso
          cases p with
          | nil => exact absurd rfl hp
          | cons q qs =>
            simp only [List.isPrefixOf, Bool.and_eq_true, beq_iff_eq] at h
            have hq := hnw q (List.mem_cons_self ..)
            rw [h.1] at hq
            rw [hq] at hc
            cases hc
        · exact h
      have := dropWhile_token hp hnw hrest
      simpa [List.dropWhile, hc] using this
    · have hc' : isPySpace c = false := by simpa using hc
      simpa [List.dropWhile, hc'] using h

theorem dropTrailWs_ne_of_mem : ∀ {l : List Char},
    (∃ c ∈ l, isPySpace c = false) → dropTrailWs l ≠ []
  | [], h => by simp at h
  | c :: cs, h => by
    by_cases hc : isPySpace c = true
    · obtain ⟨d, hd, hdns⟩ := h
      rcases List.mem_cons.mp hd with rfl | hd
      · rw [hdns] at hc; cases hc
      · have hne := dropTrailWs_ne_of_mem ⟨d, hd, hdns⟩
        rcases dropTrailWs_cases c cs with he | he
        · exfalso
          simp only [dropTrailWs] at he
          rw [if_neg (by simp [hne])] at he
          cases he
        · rw [he]
          simp
    · have hc' : isPySpace c = false := by simpa using hc
      rcases dropTrailWs_cases c cs with he | he
      · exfalso
        simp only [dropTrailWs] at he
        rw [if_neg (by simp [hc'])] at he
        cases he
      · rw [he]
        simp

theorem dropTrailWs_cons_of_ne {cs : List Char} (c : Char)
    (h : dropTrailWs cs ≠ []) : dropTrailWs (c :: cs) = c :: dropTrailWs cs := by
  simp only [dropTrailWs]
  rw [if_neg]
  simp [h]

theorem dropTrailWs_append_keep : ∀ (a : List Char) {b : List Char},
    (∃ c ∈ b, isPySpace c = false) → dropTrailWs (a ++ b) = a ++ dropTrailWs b
  | [], _, _ => rfl
  | c :: a', b, hb => by
    have ih := dropTrailWs_append_keep a' hb
    have hne : dropTrailWs (a' ++ b) ≠ [] := by
      rw [ih]
      intro he
      rcases List.append_eq_nil.mp he with ⟨_, h2⟩
      exact dropTrailWs_ne_of_mem hb h2
    rw [List.cons_append, dropTrailWs_cons_of_ne c hne, ih, List.cons_append]

theorem dropTrailWs_nonws_app : ∀ (p : List Char) {y : List Char},
    (∀ c ∈ p, isPySpace c = false) → dropTrailWs (p ++ y) = p ++ dropTrailWs y
  | [], _, _ => rfl
  | c :: p', y, hnw => by
    rcases p' with _ | ⟨d, p''⟩
    · have hc : isPySpace c = false := hnw c (List.mem_cons_self ..)
      show dropTrailWs (c :: y) = c :: dropTrailWs y
      simp [dropTrailWs, hc]
    · have ih := dropTrailWs_nonws_app (d :: p'') (y := y)
        (fun x hx => hnw x (List.mem_cons_of_mem _ hx))
      have hne : dropTrailWs ((d :: p'') ++ y) ≠ [] := by
        rw [ih]
        simp
      rw [List.cons_append, dropTrailWs_cons_of_ne c hne, ih]
      simp

theorem dropTrailWs_token {m p : List Char} (hp : p ≠ [])
    (hnw : ∀ c ∈ p, isPySpace c = false) (h : containsSeq p m = true) :
    containsSeq p (dropTrailWs m) = true := by
  obtain ⟨x, y, hxy⟩ := containsSeq_ex h
  subst hxy
  obtain ⟨q, p', rfl⟩ : ∃ q p', p = q :: p' := by
    cases p with
    | nil => exact absurd rfl hp
    | cons q p' => exact ⟨q, p', rfl⟩
  have hbne : ∃ c ∈ (q :: p') ++ y, isPySpace c = false :=
    ⟨q, by simp, hnw q (List.mem_cons_self ..)⟩
  rw [List.append_assoc, dropTrailWs_append_keep x hbne, dropTrailWs_nonws_app (q :: p') hnw,
    ← List.append_assoc]
  exact containsSeq_middle x (q :: p') (dropTrailWs y)

theorem cleanWs_token {l p : List Char} (hp : p ≠ [])
    (hnw : ∀ c ∈ p, isPySpace c = false) (h : containsSeq p l = true) :
    containsSeq p (cleanWhitespaceL l) = true := by
  obtain ⟨x, y, hxy⟩ := containsSeq_ex h
  subst hxy
  have h1 : containsSeq p (collapseWs (x ++ p ++ y)) = true :=
    collapseGo_token x false p y hp hnw
  have h2 := dropWhile_token hp hnw h1
  exact dropTrailWs_token hp hnw h2

/-! ## C3 (amended) — which decimal periods survive the decimal pass -/

theorem decimalProtect_head (c : Char) (cs : List Char) :
    ∃ t, decimalProtect (c :: cs) = c :: t := by
  rcases cs with _ | ⟨z, _ | ⟨r, rs⟩⟩
  · exact ⟨[], rfl⟩
  · exact ⟨[z], rfl⟩
  · simp only [decimalProtect]
    split
    · exact ⟨_, rfl⟩
    · exact ⟨_, rfl⟩

theorem decimalProtect_dot_cons (z : Char) (rest : List Char) :
    ∃ t, decimalProtect ('.' :: z :: rest) = '.' :: z :: t := by
  rcases rest with _ | ⟨r, rs⟩
  · exact ⟨[], rfl⟩
  · have hdot : ('.' : Char).isDigit = false := by decide
    simp only [decimalProtect, hdot, Bool.and_false, Bool.false_and, Bool.false_eq_true,
      if_false]
    obtain ⟨t, ht⟩ := decimalProtect_head z (r :: rs)
    rw [ht]
    exact ⟨t, rfl⟩

/-- C3 (amended): after the decimal pass, every remaining occurrence of
digit-period-digit is immediately preceded by an inserted sentinel —
its left digit was consumed as the right capture of the previous
(overlapping) match, which `re.sub` does not re-match. -/
theorem claim_C3_decimal_overlap : ∀ (l s₁ s₂ : List Char) (a b : Char),
    decimalProtect l = s₁ ++ a :: '.' :: b :: s₂ →
    a.isDigit = true → b.isDigit = true → ∃ s₀, s₁ = s₀ ++ sentinel
  | [], s₁, s₂, a, b, h, _, _ => by
    exfalso
    simp only [decimalProtect] at h
    exact absurd h.symm (by simp)
  | [x], s₁, s₂, a, b, h, _, _ => by
    exfalso
    simp only [decimalProtect] at h
    have := congrArg List.length h
    simp [List.length_append] at this
    omega
  | [x, y], s₁, s₂, a, b, h, _, _ => by
    exfalso
    simp only [decimalProtect] at h
    have := congrArg List.length h
    simp [List.length_append] at this
    omega
  | x :: y :: z :: rest, s₁, s₂, a, b, h, ha, hb => by
    simp only [decimalProtect] at h
    split at h
    · -- matched: output is x :: <DOT> :: z :: decimalProtect rest
      rename_i hcond
      simp only [Bool.and_eq_true, decide_eq_true_eq] at hcond
      rcases s₁ with _ | ⟨e1, _ | ⟨e2, _ | ⟨e3, _ | ⟨e4, _ | ⟨e5, _ | ⟨e6, s₁'⟩⟩⟩⟩⟩⟩
      · exfalso
        simp only [List.nil_append, List.cons.injEq] at h
        exact absurd h.2.1.symm (by decide)
      · exfalso
        simp only [List.cons_append, List.nil_append, List.cons.injEq] at h
        rw [← h.2.1] at ha
        exact absurd ha (by decide)
      · exfalso
        simp only [List.cons_append, List.nil_append, List.cons.injEq] at h
        rw [← h.2.2.1] at ha
        exact absurd ha (by decide)
      · exfalso
        simp only [List.cons_append, List.nil_append, List.cons.injEq] at h
        rw [← h.2.2.2.1] at ha
        exact absurd ha (by decide)
      · exfalso
        simp only [List.cons_append, List.nil_append, List.cons.injEq] at h
        rw [← h.2.2.2.2.1] at ha
        exact absurd ha (by decide)
      · exfalso
        simp only [List.cons_append, List.nil_append, List.cons.injEq] at h
        rw [← h.2.2.2.2.2.1] at ha
        exact absurd ha (by decide)
      · rcases s₁' with _ | ⟨e7, s₁''⟩
        · -- s₁ is exactly x :: sentinel
          simp only [List.cons_append, List.nil_append, List.cons.injEq] at h
          refine ⟨[x], ?_⟩
          simp only [sentinel, h.1, List.cons_append, List.nil_append, List.cons.injEq,
            and_true, true_and]
          exact ⟨h.2.1.symm, h.2.2.1.symm, h.2.2.2.1.symm, h.2.2.2.2.1.symm,
            h.2.2.2.2.2.1.symm⟩
        · -- the occurrence lies inside the recursive output
          simp only [List.cons_append, List.cons.injEq] at h
          obtain ⟨s₀, hs₀⟩ :=
            claim_C3_decimal_overlap rest s₁'' s₂ a b h.2.2.2.2.2.2.2 ha hb
          refine ⟨x :: e2 :: e3 :: e4 :: e5 :: e6 :: e7 :: s₀, ?_⟩
          simp [h.1, h.2.1, h.2.2.1, h.2.2.2.1, h.2.2.2.2.1, h.2.2.2.2.2.1,
            h.2.2.2.2.2.2.1, hs₀, List.cons_append]
    · -- not matched: output is x :: decimalProtect (y :: z :: rest)
      rename_i hcond
      rcases s₁ with _ | ⟨e1, s₁'⟩
      · exfalso
        simp only [List.nil_append, List.cons.injEq] at h
        -- then decimalProtect (y :: z :: rest) starts with '.' :: b, forcing
        -- y = '.', z = b, and the skipped condition to hold after all
        have hy : y = '.' := by
          obtain ⟨t, ht⟩ := decimalProtect_head y (z :: rest)
          rw [ht] at h
          exact (List.cons.injEq .. ▸ h.2).1
        subst hy
        obtain ⟨t, ht⟩ := decimalProtect_dot_cons z rest
        rw [ht] at h
        have hz : z = b := by
          have := h.2
          simp only [List.cons.injEq] at this
          exact this.2.1
        rw [← h.1] at ha
        rw [hz] at hcond
        simp [ha, hb, Bool.and_eq_true, decide_eq_true_eq] at hcond
      · simp only [List.cons_append, List.cons.injEq] at h
        obtain ⟨s₀, hs₀⟩ :=
          claim_C3_decimal_overlap (y :: z :: rest) s₁' s₂ a b h.2 ha hb
        exact ⟨e1 :: s₀, by simp [h.1, hs₀]⟩

/-- C3 (amended, witness): in the output `"1<DOT>2.3"` of the decimal
pass on `"1.2.3"`, the surviving occurrence `2.3` is preceded by the
sentinel. -/
theorem claim_C3_decimal_overlap_witness :
    ∃ s₀, "1<DOT>".toList = s₀ ++ sentinel :=
  claim_C3_decimal_overlap "1.2.3".toList "1<DOT>".toList [] '2' '3'
    (by decide) (by decide) (by decide)

/-! ## C7 — PII masking (corrected: pre-mask stages can destroy a match,
the URL pass can swallow the email token, and matched text can persist
at unmatched positions) -/

/-- A `takeWhile` run is no longer than the list. -/
theorem lenTakeWhileLe (p : Char → Bool) : ∀ (l : List Char),
    (l.takeWhile p).length ≤ l.length
  | [] => Nat.le_refl _
  | c :: cs => by
    cases hp : p c with
    | true =>
      simp only [List.takeWhile_cons, hp, if_true, List.length_cons]
      exact Nat.succ_le_succ (lenTakeWhileLe p cs)
    | false =>
      simp only [List.takeWhile_cons, hp, Bool.false_eq_true, if_false, List.length_nil]
      exact Nat.zero_le _

/-- A TLD length returned by `tldTry` fits inside the text after the period. -/
theorem tldTry_le : ∀ (u : List Char) (j k : Nat),
    tldTry u j = Option.some k → k ≤ u.length
  | _, 0, _, h => by cases h
  | u, Nat.succ m, k, h => by
    simp only [tldTry] at h
    split at h
    · cases h
    · split at h
      · rename_i hcond
        simp only [Option.some.injEq] at h
        subst h
        simp only [Bool.and_eq_true, decide_eq_true_eq] at hcond
        have hlt : (u.take (m + 1)).length = m + 1 := hcond.1.1
        rw [List.length_take] at hlt
        omega
      · exact tldTry_le u m k h

/-- What a successful `domTry` means: a literal period at the split point
and a successful TLD search after it. -/
theorem domTry_spec : ∀ (s : List Char) (j ℓ k : Nat),
    domTry s j = Option.some (ℓ, k) →
    s.get? ℓ = Option.some '.' ∧ tldTry (s.drop (ℓ + 1)) 7 = Option.some k
  | _, 0, _, _, h => by cases h
  | s, Nat.succ m, ℓ, k, h => by
    simp only [domTry] at h
    split at h
    · rename_i hdot
      split at h
      · rename_i k' htld
        simp only [Option.some.injEq, Prod.mk.injEq] at h
        obtain ⟨h1, h2⟩ := h
        subst h1
        subst h2
        exact ⟨hdot, htld⟩
      · exact domTry_spec s m ℓ k h
    · exact domTry_spec s m ℓ k h

/-- `emailMatch` is length-sane: a match of result `n` consumes `n + 1`
characters, which exist in the input. -/
theorem emailMatch_le : ∀ (pv : Option Char) (l : List Char) (n : Nat),
    emailMatch pv l = Option.some n → n + 1 ≤ l.length
  | pv, [], n, h => by cases h
  | pv, c :: rest, n, h => by
    simp only [emailMatch] at h
    split at h
    · split at h
      · rename_i hwb hloc
        split at h
        · rename_i ℓ k hdom
          simp only [Option.some.injEq] at h
          simp only [Bool.and_eq_true, decide_eq_true_eq] at hloc
          have hat := hloc.2
          have hL : ((c :: rest).takeWhile isLocalChar).length < (c :: rest).length :=
            (List.get?_eq_some.mp hat).1
          obtain ⟨hdot, htld⟩ := domTry_spec _ _ _ _ hdom
          have hℓ : ℓ < ((c :: rest).drop
              (((c :: rest).takeWhile isLocalChar).length + 1)).length :=
            (List.get?_eq_some.mp hdot).1
          have hk := tldTry_le _ _ _ htld
          rw [List.length_drop] at hℓ
          rw [List.length_drop, List.length_drop] at hk
          omega
        · cases h
      · cases h
    · cases h

/-- `urlMatch` is length-sane. -/
theorem urlMatch_le (pv : Option Char) (l : List Char) (n : Nat)
    (h : urlMatch pv l = Option.some n) : n + 1 ≤ l.length := by
  simp only [urlMatch] at h
  split at h
  · rename_i hcond
    simp only [Bool.and_eq_true, decide_eq_true_eq] at hcond
    obtain ⟨t, ht⟩ := isPrefixOf_ex hcond.1
    subst ht
    simp only [Option.some.injEq] at h
    have hr := hcond.2
    have hdrop : List.drop 8 ("https://".toList ++ t) = t := List.drop_left "https://".toList t
    rw [hdrop] at h hr
    rw [List.length_append]
    have h8 : ("https://".toList).length = 8 := rfl
    rw [h8]
    have hle := lenTakeWhileLe (fun c => !isPySpace c) t
    omega
  · split at h
    · rename_i hcond
      simp only [Bool.and_eq_true, decide_eq_true_eq] at hcond
      obtain ⟨t, ht⟩ := isPrefixOf_ex hcond.1
      subst ht
      simp only [Option.some.injEq] at h
      have hr := hcond.2
      have hdrop : List.drop 7 ("http://".toList ++ t) = t := List.drop_left "http://".toList t
      rw [hdrop] at h hr
      rw [List.length_append]
      have h8 : ("http://".toList).length = 7 := rfl
      rw [h8]
      have hle := lenTakeWhileLe (fun c => !isPySpace c) t
      omega
    · split at h
      · rename_i hcond
        simp only [Bool.and_eq_true, decide_eq_true_eq] at hcond
        obtain ⟨t, ht⟩ := isPrefixOf_ex hcond.1
        subst ht
        simp only [Option.some.injEq] at h
        have hr := hcond.2
        have hdrop : List.drop 4 ("www.".toList ++ t) = t := List.drop_left "www.".toList t
        rw [hdrop] at h hr
        rw [List.length_append]
        have h8 : ("www.".toList).length = 4 := rfl
        rw [h8]
        have hle := lenTakeWhileLe (fun c => !isPySpace c) t
        omega
      · split at h
        · rename_i hcond
          simp only [Bool.and_eq_true, decide_eq_true_eq] at hcond
          obtain ⟨t, ht⟩ := isPrefixOf_ex hcond.1
          subst ht
          simp only [Option.some.injEq] at h
          have hr := hcond.2
          have hdrop : List.drop 7 ("bit.ly/".toList ++ t) = t := List.drop_left "bit.ly/".toList t
          rw [hdrop] at h hr
          rw [List.length_append]
          have h8 : ("bit.ly/".toList).length = 7 := rfl
          rw [h8]
          have hle := lenTakeWhileLe (fun c => !isPySpace c) t
          omega
        · cases h

/-- Passing over a nonempty span with the skip counter lands the scanner
just after the span, with the span's last character as lookbehind. -/
theorem subConstGo_skip (m : Option Char → List Char → Option Nat)
    (repl : List Char) :
    ∀ (g : List Char) (pv : Option Char) (post : List Char), g ≠ [] →
    subConstGo m repl g.length pv (g ++ post) =
      subConstGo m repl 0 g.getLast? post
  | [], _, _, hg => absurd rfl hg
  | [d], pv, post, _ => by
    show subConstGo m repl 1 pv (d :: post) = subConstGo m repl 0 [d].getLast? post
    rw [show ([d] : List Char).getLast? = Option.some d from rfl]
    rfl
  | d :: d' :: g'', pv, post, _ => by
    have ih := subConstGo_skip m repl (d' :: g'') (Option.some d) post (by simp)
    show subConstGo m repl ((d' :: g'').length + 1) pv (d :: ((d' :: g'') ++ post)) =
      subConstGo m repl 0 ((d :: d' :: g'').getLast?) post
    rw [show subConstGo m repl ((d' :: g'').length + 1) pv (d :: ((d' :: g'') ++ post)) =
      subConstGo m repl (d' :: g'').length (Option.some d) ((d' :: g'') ++ post) from rfl]
    rw [ih, List.getLast?_cons_cons]

/-- First-match decomposition of the scanner: either no match fires and
the text is returned unchanged, or the input splits as
`pre ++ span ++ post` where `span` is exactly the first matched span
(`n + 1` characters, matched by `m` with some lookbehind), the output
replaces `span` by `repl`, and scanning resumes on `post`. -/
theorem subConstGo_first_match (m : Option Char → List Char → Option Nat)
    (repl : List Char)
    (hm : ∀ pv l n, m pv l = Option.some n → n + 1 ≤ l.length) :
    ∀ (l : List Char) (prev : Option Char),
    subConstGo m repl 0 prev l = l ∨
      ∃ (pre span post : List Char) (pv : Option Char) (n : Nat),
        l = pre ++ span ++ post ∧ span.length = n + 1 ∧
        m pv (span ++ post) = Option.some n ∧
        subConstGo m repl 0 prev l =
          pre ++ repl ++ subConstGo m repl 0 span.getLast? post
  | [], _ => Or.inl rfl
  | c :: cs, prev => by
    cases hmc : m prev (c :: cs) with
    | some n =>
      right
      have hlen : n + 1 ≤ (c :: cs).length := hm prev (c :: cs) n hmc
      simp only [List.length_cons] at hlen
      refine ⟨[], c :: cs.take n, cs.drop n, prev, n, ?_, ?_, ?_, ?_⟩
      · simp
      · simp only [List.length_cons, List.length_take]
        omega
      · rw [show (c :: cs.take n) ++ cs.drop n = c :: cs by simp]
        exact hmc
      · simp only [subConstGo, hmc]
        cases n with
        | zero =>
          simp [List.getLast?]
        | succ k =>
          have htk : (cs.take (k + 1)).length = k + 1 := by
            simp only [List.length_take]
            omega
          have hne : cs.take (k + 1) ≠ [] := by
            intro he
            rw [he] at htk
            cases htk
          have hskip := subConstGo_skip m repl (cs.take (k + 1)) (Option.some c)
            (cs.drop (k + 1)) hne
          rw [htk] at hskip
          obtain ⟨t0, ts, hts⟩ : ∃ t0 ts, cs.take (k + 1) = t0 :: ts := by
            cases hcc : cs.take (k + 1) with
            | nil => exact absurd hcc hne
            | cons a as => exact ⟨a, as, rfl⟩
          have htad : cs = cs.take (k + 1) ++ cs.drop (k + 1) :=
            (List.take_append_drop (k + 1) cs).symm
          nth_rewrite 1 [htad]
          rw [hskip, hts, List.getLast?_cons_cons]
          simp
    | none =>
      rcases subConstGo_first_match m repl hm cs (Option.some c) with he |
          ⟨pre, span, post, pv, n, h1, h2, h3, h4⟩
      · left
        simp only [subConstGo, hmc, he]
      · right
        refine ⟨c :: pre, span, post, pv, n, by simp [h1], h2, h3, ?_⟩
        simp only [subConstGo, hmc, h4]
        simp
/-- C7 (counterexample): three failures of the original claim.
(1) `"http://a.com/x@y.com"` contains the well-formed email `x@y.com`
(the email pattern matches it and the email substitution fires on the
text), yet `clean = "<URL>"` contains no `<EMAIL>` token: the URL
pattern's `\S+`, running second, swallows the freshly inserted token.
(2) `"a@b.c|d"` is in its entirety a well-formed email — the TLD class
`[A-Z|a-z]` accepts `'|'`, so the email pattern matches all 7
characters — yet the pipeline rewrites `'|'` to `' '` before masking,
no email remains to match, and `clean = "a@b.c d"` contains neither
`<EMAIL>` nor `<URL>`: a well-formed email in the input text does not
guarantee a placeholder in `clean`.
(3) On `"a@b.com a@b.com1"` the email pattern matches exactly the
7-character substring `"a@b.com"`, and `clean = "<EMAIL> a@b.com1"`
still contains `"a@b.com"` — as a prefix of the unmatched
`"a@b.com1"` — so `clean` can contain the text of the original
matched substring. -/
theorem claim_C7_cex :
    (subConst emailMatch emailToken "http://a.com/x@y.com".toList ≠
        "http://a.com/x@y.com".toList ∧
      emailMatch Option.none "x@y.com".toList ≠ Option.none ∧
      (preprocess (PyVal.str "http://a.com/x@y.com")).clean = "<URL>" ∧
      containsSeq emailToken
        (preprocess (PyVal.str "http://a.com/x@y.com")).clean.toList = false) ∧
    (emailMatch Option.none "a@b.c|d".toList = Option.some 6 ∧
      (preprocess (PyVal.str "a@b.c|d")).clean = "a@b.c d" ∧
      containsSeq emailToken
        (preprocess (PyVal.str "a@b.c|d")).clean.toList = false ∧
      containsSeq urlToken
        (preprocess (PyVal.str "a@b.c|d")).clean.toList = false) ∧
    (emailMatch Option.none "a@b.com a@b.com1".toList = Option.some 6 ∧
      (preprocess (PyVal.str "a@b.com a@b.com1")).clean = "<EMAIL> a@b.com1" ∧
      containsSeq "a@b.com".toList
        (preprocess (PyVal.str "a@b.com a@b.com1")).clean.toList = true) := by
  decide

/-- C7 (amended): at the masking stage the email substitution runs
before the URL substitution (`mask_pii` is their composition in that
order); each substitution either leaves the text unchanged or replaces
exactly the whole span of its leftmost match by its placeholder token
and resumes scanning after the span, so a matched occurrence never
survives in place, although equal text can persist at other, unmatched
positions; whenever the email pattern fires, `clean` contains
`<EMAIL>`, except that the freshly inserted token can then be consumed
by the URL substitution, in which case the URL substitution fired and
`clean` contains `<URL>` instead; and whenever the URL pattern fires,
`clean` contains `<URL>`. -/
theorem claim_C7_mask_tokens (s : String)
    (hguard : (stripChars s.toList).isEmpty = false) :
    mask_piiL (preMaskStage s) =
      subConst urlMatch urlToken (subConst emailMatch emailToken (preMaskStage s)) ∧
    (subConst emailMatch emailToken (preMaskStage s) = preMaskStage s ∨
      ∃ (pre span post : List Char) (pv : Option Char) (n : Nat),
        preMaskStage s = pre ++ span ++ post ∧ span.length = n + 1 ∧
        emailMatch pv (span ++ post) = Option.some n ∧
        subConst emailMatch emailToken (preMaskStage s) =
          pre ++ emailToken ++ subConstGo emailMatch emailToken 0 span.getLast? post) ∧
    (subConst urlMatch urlToken (subConst emailMatch emailToken (preMaskStage s)) =
        subConst emailMatch emailToken (preMaskStage s) ∨
      ∃ (pre span post : List Char) (pv : Option Char) (n : Nat),
        subConst emailMatch emailToken (preMaskStage s) = pre ++ span ++ post ∧
        span.length = n + 1 ∧ urlMatch pv (span ++ post) = Option.some n ∧
        subConst urlMatch urlToken (subConst emailMatch emailToken (preMaskStage s)) =
          pre ++ urlToken ++ subConstGo urlMatch urlToken 0 span.getLast? post) ∧
    (subConst emailMatch emailToken (preMaskStage s) ≠ preMaskStage s →
      containsSeq emailToken (preprocess (PyVal.str s)).clean.toList = true ∨
      (subConst urlMatch urlToken (subConst emailMatch emailToken (preMaskStage s)) ≠
          subConst emailMatch emailToken (preMaskStage s) ∧
        containsSeq urlToken (preprocess (PyVal.str s)).clean.toList = true)) ∧
    (subConst urlMatch urlToken (subConst emailMatch emailToken (preMaskStage s)) ≠
        subConst emailMatch emailToken (preMaskStage s) →
      containsSeq urlToken (preprocess (PyVal.str s)).clean.toList = true) := by
  have hclean : (preprocess (PyVal.str s)).clean.toList =
      cleanWhitespaceL (mask_piiL (preMaskStage s)) := by
    unfold preprocess
    simp only [pyIsStr, pyAsStr, hguard, Bool.not_true, Bool.false_or, Bool.false_eq_true,
      if_false]
    exact strToList_mk _
  have hem : emailToken ≠ [] := by decide
  have hemnw : ∀ c ∈ emailToken, isPySpace c = false := by decide
  have hur : urlToken ≠ [] := by decide
  have hurnw : ∀ c ∈ urlToken, isPySpace c = false := by decide
  refine ⟨rfl, ?_, ?_, ?_, ?_⟩
  · exact subConstGo_first_match emailMatch emailToken emailMatch_le
      (preMaskStage s) Option.none
  · exact subConstGo_first_match urlMatch urlToken urlMatch_le
      (subConst emailMatch emailToken (preMaskStage s)) Option.none
  · intro hchanged
    have h1 : containsSeq emailToken
        (subConst emailMatch emailToken (preMaskStage s)) = true := by
      rcases subConst_self_or_contains emailMatch emailToken (preMaskStage s) with he | he
      · exact absurd he hchanged
      · exact he
    by_cases hu : subConst urlMatch urlToken
        (subConst emailMatch emailToken (preMaskStage s)) =
        subConst emailMatch emailToken (preMaskStage s)
    · left
      rw [hclean]
      apply cleanWs_token hem hemnw
      show containsSeq emailToken (mask_piiL (preMaskStage s)) = true
      unfold mask_piiL
      rw [hu]
      exact h1
    · right
      refine ⟨hu, ?_⟩
      rw [hclean]
      apply cleanWs_token hur hurnw
      rcases subConst_self_or_contains urlMatch urlToken
          (subConst emailMatch emailToken (preMaskStage s)) with he | he
      · exact absurd he hu
      · exact he
  · intro hchanged
    rw [hclean]
    apply cleanWs_token hur hurnw
    rcases subConst_self_or_contains urlMatch urlToken
        (subConst emailMatch emailToken (preMaskStage s)) with he | he
    · exact absurd he hchanged
    · exact he

/-- C7 (amended, witness): on `"mail a@b.com"` the email substitution
fires, and `clean` contains `<EMAIL>` or the URL substitution fired
and `clean` contains `<URL>`. -/
theorem claim_C7_witness :
    containsSeq emailToken (preprocess (PyVal.str "mail a@b.com")).clean.toList = true ∨
    (subConst urlMatch urlToken
        (subConst emailMatch emailToken (preMaskStage "mail a@b.com")) ≠
      subConst emailMatch emailToken (preMaskStage "mail a@b.com") ∧
      containsSeq urlToken (preprocess (PyVal.str "mail a@b.com")).clean.toList = true) :=
  (claim_C7_mask_tokens "mail a@b.com" (by decide)).2.2.2.1 (by decide)

/-! ## The protect phase only expands periods into sentinels -/

theorem dotExp_refl : ∀ (l : List Char), DotExp l l
  | [] => DotExp.nil
  | c :: cs => DotExp.keep c (dotExp_refl cs)

theorem dotExp_append : ∀ (p : List Char) {t u : List Char},
    DotExp t u → DotExp (p ++ t) (p ++ u)
  | [], _, _, h => h
  | c :: p', t, u, h => DotExp.keep c (dotExp_append p' h)

theorem dotExp_trans {a b : List Char} (h1 : DotExp a b) :
    ∀ {c : List Char}, DotExp b c → DotExp a c := by
  induction h1 with
  | nil => intro c h2; exact h2
  | keep ch h ih =>
    intro c h2
    cases h2 with
    | keep _ h2' => exact DotExp.keep ch (ih h2')
    | dot h2' => exact DotExp.dot (ih h2')
  | dot h ih =>
    intro c h2
    cases h2 with
    | keep _ h2a =>
      cases h2a with
      | keep _ h2b =>
        cases h2b with
        | keep _ h2c =>
          cases h2c with
          | keep _ h2d =>
            cases h2d with
            | keep _ h2e => exact DotExp.dot (ih h2e)

theorem dotExp_decimalProtect : ∀ (l : List Char), DotExp l (decimalProtect l)
  | [] => DotExp.nil
  | [a] => DotExp.keep a DotExp.nil
  | [a, b] => DotExp.keep a (DotExp.keep b DotExp.nil)
  | a :: b :: c :: rest => by
    by_cases hcond : (b = '.' && a.isDigit && c.isDigit) = true
    · have hstep : decimalProtect (a :: b :: c :: rest) =
          a :: '<' :: 'D' :: 'O' :: 'T' :: '>' :: c :: decimalProtect rest := by
        simp only [decimalProtect, hcond, if_true]
      rw [hstep]
      have hb : b = '.' := by
        simp only [Bool.and_eq_true, decide_eq_true_eq] at hcond
        exact hcond.1.1
      subst hb
      exact DotExp.keep a (DotExp.dot (DotExp.keep c (dotExp_decimalProtect rest)))
    · have hstep : decimalProtect (a :: b :: c :: rest) =
          a :: decimalProtect (b :: c :: rest) := by
        simp only [decimalProtect, hcond, if_false, Bool.false_eq_true]
      rw [hstep]
      exact DotExp.keep a (dotExp_decimalProtect (b :: c :: rest))

theorem dotExp_initialsSub : ∀ (prev : Option Char) (l : List Char),
    DotExp l (initialsSub prev l)
  | _, [] => DotExp.nil
  | _, [c] => DotExp.keep c DotExp.nil
  | prev, c :: d :: cs => by
    by_cases hcond : (wordBoundary prev c && isUpperSeg c && d = '.') = true
    · have hstep : initialsSub prev (c :: d :: cs) =
          c :: sentinel ++ initialsSub (Option.some '.') cs := by
        simp only [initialsSub, hcond, if_true]
      rw [hstep]
      have hd : d = '.' := by
        simp only [Bool.and_eq_true, decide_eq_true_eq] at hcond
        exact hcond.2
      subst hd
      exact DotExp.keep c (DotExp.dot (dotExp_initialsSub (Option.some '.') cs))
    · have hstep : initialsSub prev (c :: d :: cs) =
          c :: initialsSub (Option.some c) (d :: cs) := by
        simp only [initialsSub, hcond, if_false, Bool.false_eq_true]
      rw [hstep]
      exact DotExp.keep c (dotExp_initialsSub (Option.some c) (d :: cs))

theorem findAbbrev_dot : ∀ {l : List Char} {as : List (List Char)} {k : Nat},
    (∀ a ∈ as, a ≠ []) → findAbbrev l as = Option.some k →
    l.get? k = Option.some '.' ∧ 1 ≤ k
  | _, [], _, _, h => by cases h
  | l, a :: rest, k, hne, h => by
    by_cases hc : (ciStarts a l && l.get? a.length = Option.some '.') = true
    · have hk : k = a.length := by
        simp only [findAbbrev, hc, if_true, Option.some.injEq] at h
        exact h.symm
      subst hk
      simp only [Bool.and_eq_true, decide_eq_true_eq] at hc
      refine ⟨hc.2, ?_⟩
      have hane := hne a (List.mem_cons_self ..)
      cases a with
      | nil => exact absurd rfl hane
      | cons x xs => simp
    · have hstep : findAbbrev l (a :: rest) = findAbbrev l rest := by
        simp only [findAbbrev, hc, if_false, Bool.false_eq_true]
      rw [hstep] at h
      exact findAbbrev_dot (fun x hx => hne x (List.mem_cons_of_mem _ hx)) h

theorem get?_decomp : ∀ (l : List Char) (k : Nat) (x : Char),
    l.get? k = Option.some x → l = l.take k ++ x :: l.drop (k + 1)
  | [], _, _, h => by cases h
  | c :: cs, 0, x, h => by
    simp only [List.get?_cons_zero, Option.some.injEq] at h
    simp [h]
  | c :: cs, Nat.succ k, x, h => by
    simp only [List.get?_cons_succ] at h
    have ih := get?_decomp cs k x h
    simp only [List.take_succ_cons, List.drop_succ_cons, List.cons_append]
    exact congrArg (c :: ·) ih

theorem abbrevGo_span : ∀ (g rest : List Char) (prev : Option Char),
    abbrevGo (g.length + 1) prev (g ++ '.' :: rest) =
      g ++ sentinel ++ abbrevGo 0 (Option.some '.') rest
  | [], rest, prev => rfl
  | g0 :: g', rest, prev => by
    have ih := abbrevGo_span g' rest (Option.some g0)
    show abbrevGo (g'.length + 1 + 1) prev (g0 :: (g' ++ '.' :: rest)) = _
    rw [show abbrevGo (g'.length + 1 + 1) prev (g0 :: (g' ++ '.' :: rest)) =
      g0 :: abbrevGo (g'.length + 1) (Option.some g0) (g' ++ '.' :: rest) from rfl]
    rw [ih]
    simp

theorem dotExp_abbrevGo : ∀ (l : List Char) (prev : Option Char),
    DotExp l (abbrevGo 0 prev l)
  | [], _ => DotExp.nil
  | c :: cs, prev => by
    by_cases hwb : wordBoundary prev c = true
    · cases hfa : findAbbrev (c :: cs) uaAbbreviations with
      | none =>
        have hstep : abbrevGo 0 prev (c :: cs) =
            c :: abbrevGo 0 (Option.some c) cs := by
          simp only [abbrevGo, hwb, if_true, hfa]
        rw [hstep]
        exact DotExp.keep c (dotExp_abbrevGo cs (Option.some c))
      | some k =>
        have hstep : abbrevGo 0 prev (c :: cs) =
            c :: abbrevGo k (Option.some c) cs := by
          simp only [abbrevGo, hwb, if_true, hfa]
        rw [hstep]
        obtain ⟨hget, hk1⟩ := findAbbrev_dot (by decide) hfa
        obtain ⟨k', rfl⟩ : ∃ k', k = k' + 1 := by
          cases k with
          | zero => cases hk1
          | succ k' => exact ⟨k', rfl⟩
        have hklt : k' + 1 < (c :: cs).length := by
          rcases List.get?_eq_some.mp hget with ⟨hlt, _⟩
          exact hlt
        have hget' : cs.get? k' = Option.some '.' := by
          simpa using hget
        have hdec := get?_decomp cs k' '.' hget'
        have hlen : (cs.take k').length = k' := by
          simp only [List.length_take]
          simp only [List.length_cons] at hklt
          omega
        have hspan := abbrevGo_span (cs.take k') (cs.drop (k' + 1)) (Option.some c)
        rw [hlen] at hspan
        rw [show abbrevGo (k' + 1) (Option.some c) cs =
            abbrevGo (k' + 1) (Option.some c) (cs.take k' ++ '.' :: cs.drop (k' + 1)) by
          rw [← hdec]]
        rw [hspan]
        have htail : DotExp ('.' :: cs.drop (k' + 1))
            (sentinel ++ abbrevGo 0 (Option.some '.') (cs.drop (k' + 1))) :=
          DotExp.dot (dotExp_abbrevGo (cs.drop (k' + 1)) (Option.some '.'))
        have hmid := dotExp_append (cs.take k') htail
        rw [List.append_assoc]
        refine DotExp.keep c ?_
        nth_rewrite 1 [hdec]
        exact hmid
    · have hwb' : wordBoundary prev c = false := by simpa using hwb
      have hstep : abbrevGo 0 prev (c :: cs) =
          c :: abbrevGo 0 (Option.some c) cs := by
        simp only [abbrevGo, hwb', if_false, Bool.false_eq_true]
      rw [hstep]
      exact DotExp.keep c (dotExp_abbrevGo cs (Option.some c))
termination_by l _ => l.length
decreasing_by
  · simp only [List.length_cons]; omega
  · simp only [List.length_drop, List.length_cons]; omega
  · simp only [List.length_cons]; omega

theorem dotExp_protectText (l : List Char) : DotExp l (protectText l) :=
  dotExp_trans
    (dotExp_trans (dotExp_abbrevGo l Option.none)
      (dotExp_decimalProtect (abbrevSub l)))
    (dotExp_initialsSub Option.none (decimalProtect (abbrevSub l)))

/-! ## The split pattern cannot be created by protection -/

theorem hasTrigAux_mono : ∀ (l : List Char) (t1 p1 t2 p2 : Bool),
    (t1 = true → t2 = true) → (p1 = true → p2 = true) →
    hasTrigAux t1 p1 l = true → hasTrigAux t2 p2 l = true
  | [], _, _, _, _, _, _, h => by cases h
  | c :: cs, t1, p1, t2, p2, ht, hp, h => by
    by_cases hc : isPySpace c = true
    · simp only [hasTrigAux, hc, if_true] at h ⊢
      exact hasTrigAux_mono cs t1 true t2 true ht (fun _ => rfl) h
    · have hc' : isPySpace c = false := by simpa using hc
      simp only [hasTrigAux, hc', Bool.false_eq_true, if_false, Bool.or_eq_true,
        Bool.and_eq_true] at h ⊢
      rcases h with ⟨⟨h1, h2⟩, h3⟩ | h
      · exact Or.inl ⟨⟨ht h1, hp h2⟩, h3⟩
      · exact Or.inr (hasTrigAux_mono cs _ _ _ _ (fun x => x) (fun x => x) h)

theorem dotExp_hasTrig {t u : List Char} (hd : DotExp t u) :
    ∀ (tb pb : Bool), hasTrigAux tb pb u = true → hasTrigAux tb pb t = true := by
  induction hd with
  | nil => intro tb pb h; cases h
  | keep c hdd ih =>
    intro tb pb h
    by_cases hc : isPySpace c = true
    · simp only [hasTrigAux, hc, if_true] at h ⊢
      exact ih tb true h
    · have hc' : isPySpace c = false := by simpa using hc
      simp only [hasTrigAux, hc', Bool.false_eq_true, if_false, Bool.or_eq_true] at h ⊢
      rcases h with h | h
      · exact Or.inl h
      · exact Or.inr (ih (isTerminal c) false h)
  | dot hdd ih =>
    rename_i t₀ u₀
    intro tb pb h
    have e1 : isPySpace '<' = false := by decide
    have e2 : isPySpace 'D' = false := by decide
    have e3 : isPySpace 'O' = false := by decide
    have e4 : isPySpace 'T' = false := by decide
    have e5 : isPySpace '>' = false := by decide
    have e6 : isPySpace '.' = false := by decide
    have g1 : isTrigger '<' = false := by decide
    have g6 : isTrigger '.' = false := by decide
    have f1 : isTerminal '<' = false := by decide
    have f2 : isTerminal 'D' = false := by decide
    have f3 : isTerminal 'O' = false := by decide
    have f4 : isTerminal 'T' = false := by decide
    have f5 : isTerminal '>' = false := by decide
    have f6 : isTerminal '.' = true := by decide
    have h0 : hasTrigAux false false u₀ = true := by
      simpa only [hasTrigAux, e1, e2, e3, e4, e5, g1, f1, f2, f3, f4, f5,
        Bool.false_eq_true, if_false, Bool.and_false, Bool.false_and, Bool.false_or] using h
    have h1 := ih false false h0
    simp only [hasTrigAux, e6, g6, f6, Bool.false_eq_true, if_false, Bool.and_false,
      Bool.false_or, Bool.or_eq_true]
    exact hasTrigAux_mono t₀ false false true false
      (fun hff => absurd hff (by decide)) (fun x => x) h1

theorem splitGo_of_no_trig : ∀ (l : List Char) (tb : Bool) (cur pend : List Char),
    hasTrigAux tb (!pend.isEmpty) l = false →
    splitGo tb cur pend l = [cur ++ pend ++ l]
  | [], tb, cur, pend, _ => by simp [splitGo]
  | c :: cs, tb, cur, pend, h => by
    by_cases hc : isPySpace c = true
    · simp only [hasTrigAux, hc, if_true] at h
      have hpe : (pend ++ [c]).isEmpty = false := by simp
      have ih := splitGo_of_no_trig cs tb cur (pend ++ [c])
        (by simp only [hpe, Bool.not_false]; exact h)
      simp only [splitGo, hc, if_true]
      rw [ih]
      simp
    · have hc' : isPySpace c = false := by simpa using hc
      simp only [hasTrigAux, hc', Bool.false_eq_true, if_false, Bool.or_eq_false_iff] at h
      obtain ⟨h1, h2⟩ := h
      have ih := splitGo_of_no_trig cs (isTerminal c) (cur ++ pend ++ [c]) []
        (by simpa using h2)
      simp only [splitGo, hc', Bool.false_eq_true, if_false, h1]
      rw [ih]
      simp

/-! ## Restoration undoes protection when the input lacks the sentinel -/

theorem restoreDots_cons_of_ne (c : Char) (cs : List Char)
    (h : sentinel.isPrefixOf (c :: cs) = false) :
    restoreDots (c :: cs) = c :: restoreDots cs := by
  rw [restoreDots.eq_def]
  split
  · rename_i heq
    exfalso
    rw [heq] at h
    simp [sentinel, List.isPrefixOf] at h
  · rename_i heq
    injection heq with h1 h2
    rw [h1, h2]
  · rename_i heq
    simp at heq

theorem containsSeq_cons_false {p t : List Char} {c : Char}
    (h : containsSeq p (c :: t) = false) : containsSeq p t = false := by
  rcases Bool.eq_false_or_eq_true (containsSeq p t) with h' | h'
  · rw [containsSeq_cons c h'] at h
    cases h
  · exact h' 

theorem restoreDots_dotExp {t u : List Char} (hd : DotExp t u) :
    containsSeq sentinel t = false → restoreDots u = t := by
  induction hd with
  | nil => intro _; rfl
  | dot hdd ih =>
    rename_i t₀ u₀
    intro hna
    rw [show restoreDots ('<' :: 'D' :: 'O' :: 'T' :: '>' :: u₀) =
      '.' :: restoreDots u₀ from rfl]
    rw [ih (containsSeq_cons_false hna)]
  | keep c hdd ih =>
    rename_i t₀ u₀
    intro hna
    by_cases hp : sentinel.isPrefixOf (c :: u₀) = true
    · exfalso
      obtain ⟨t', ht'⟩ := isPrefixOf_ex hp
      simp only [sentinel, List.cons_append, List.nil_append, List.cons.injEq] at ht'
      obtain ⟨hc, hu⟩ := ht'
      subst hc
      subst hu
      cases hdd with
      | keep _ h1 =>
        cases h1 with
        | keep _ h2 =>
          cases h2 with
          | keep _ h3 =>
            cases h3 with
            | keep _ h4 =>
              rename_i t₄
              have hhere : containsSeq sentinel
                  ('<' :: 'D' :: 'O' :: 'T' :: '>' :: t₄) = true := by
                have := containsSeq_here sentinel t₄
                simpa [sentinel] using this
              rw [hhere] at hna
              cases hna
    · have hp' : sentinel.isPrefixOf (c :: u₀) = false := Bool.eq_false_iff.mpr hp
      rw [restoreDots_cons_of_ne c u₀ hp']
      rw [ih (containsSeq_cons_false hna)]

/-! ## Helpers about stripped text -/

theorem terminal_not_ws {c : Char} (h : isTerminal c = true) : isPySpace c = false := by
  simp only [isTerminal, Bool.or_eq_true, decide_eq_true_eq] at h
  rcases h with ((rfl | rfl) | rfl) | rfl <;> decide

theorem mem_dropWhile_of_nonws : ∀ {l : List Char} {c : Char},
    c ∈ l → isPySpace c = false → c ∈ l.dropWhile isPySpace
  | [], c, h, _ => by cases h
  | d :: ds, c, h, hns => by
    by_cases hd : isPySpace d = true
    · rcases List.mem_cons.mp h with rfl | h
      · rw [hns] at hd; cases hd
      · have := mem_dropWhile_of_nonws h hns
        simpa [List.dropWhile, hd] using this
    · have hd' : isPySpace d = false := by simpa using hd
      simpa [List.dropWhile, hd'] using h

theorem stripChars_ne_of_mem {l : List Char} (h : ∃ c ∈ l, isPySpace c = false) :
    stripChars l ≠ [] := by
  obtain ⟨c, hc, hns⟩ := h
  exact dropTrailWs_ne_of_mem ⟨c, mem_dropWhile_of_nonws hc hns, hns⟩

theorem lastNotWs_ex : ∀ {m : List Char}, lastNotWs m = true → m ≠ [] →
    ∃ c ∈ m, isPySpace c = false
  | [], _, hne => absurd rfl hne
  | c :: cs, h, _ => by
    cases cs with
    | nil =>
      refine ⟨c, List.mem_cons_self .., ?_⟩
      simpa [lastNotWs] using h
    | cons d ds =>
      have h' : lastNotWs (d :: ds) = true := by simpa [lastNotWs] using h
      obtain ⟨e, he, hens⟩ := lastNotWs_ex h' (by simp)
      exact ⟨e, List.mem_cons_of_mem _ he, hens⟩

theorem stripChars_has_nonws {l : List Char} (h : stripChars l ≠ []) :
    ∃ c ∈ stripChars l, isPySpace c = false :=
  lastNotWs_ex (lastNotWs_dropTrailWs _) h

theorem stringMk_eq_empty_iff (l : List Char) : String.mk l = "" ↔ l = [] := by
  constructor
  · intro h
    have h2 := congrArg String.toList h
    simpa using h2
  · intro h
    rw [h]

/-! ## C4 — fallback to a single trimmed sentence (corrected: the input
must not contain the sentinel) -/

/-- C4 (counterexample): `"a<DOT>b. end"` is non-empty, contains
terminal punctuation, and has no terminal-punctuation–whitespace–trigger
pattern, yet `split_sentences` returns `["a.b. end"]`, not the trimmed
input: the pre-existing `<DOT>` text is rewritten to a period by the
restore phase. -/
theorem claim_C4_cex :
    (∃ c ∈ "a<DOT>b. end".toList, isTerminal c = true) ∧
    hasTrig "a<DOT>b. end".toList = false ∧
    split_sentences "a<DOT>b. end" = ["a.b. end"] ∧
    split_sentences "a<DOT>b. end" ≠ [pyStrip "a<DOT>b. end"] := by
  decide

/-- C4 (amended): for every non-empty string that contains terminal
punctuation, in which no terminal punctuation is followed by whitespace
and then a trigger character (uppercase letter, digit, or opening
quote), and which does not contain the sentinel text `<DOT>`,
`split_sentences` returns the single-element list holding the trimmed
input. -/
theorem claim_C4_no_split (s : String)
    (hterm : ∃ c ∈ s.toList, isTerminal c = true)
    (htrig : hasTrig s.toList = false)
    (hdot : containsSeq sentinel s.toList = false) :
    split_sentences s = [pyStrip s] := by
  have hne : s.toList ≠ [] := by
    obtain ⟨c, hc, _⟩ := hterm
    intro he
    rw [he] at hc
    cases hc
  have hie : s.toList.isEmpty = false := by
    cases hs : s.toList with
    | nil => exact absurd hs hne
    | cons a as => rfl
  have hprot := dotExp_protectText s.toList
  have htrigP : hasTrigAux false false (protectText s.toList) = false := by
    rcases Bool.eq_false_or_eq_true (hasTrigAux false false (protectText s.toList)) with h | h
    · have h2 := dotExp_hasTrig hprot false false h
      rw [hasTrig] at htrig
      rw [h2] at htrig
      cases htrig
    · exact h
  have hsplit : splitGo false ([] : List Char) ([] : List Char) (protectText s.toList) =
      [protectText s.toList] := by
    have h := splitGo_of_no_trig (protectText s.toList) false [] []
      (by simpa using htrigP)
    simpa using h
  have hrest : restoreDots (protectText s.toList) = s.toList :=
    restoreDots_dotExp hprot hdot
  obtain ⟨c, hcm, hct⟩ := hterm
  have hstripne : stripChars s.toList ≠ [] :=
    stripChars_ne_of_mem ⟨c, hcm, terminal_not_ws hct⟩
  have hsie : (stripChars s.toList).isEmpty = false := by
    cases hs : stripChars s.toList with
    | nil => exact absurd hs hstripne
    | cons a as => rfl
  have hL : split_sentencesL s.toList = [stripChars s.toList] := by
    unfold split_sentencesL
    rw [hie]
    simp only [Bool.false_eq_true, if_false, hsplit, List.map_cons, List.map_nil, hrest]
    have hsie2 : (stripChars s.data).isEmpty = false := hsie
    simp [List.filter, hsie, hsie2]
  show (split_sentencesL s.toList).map String.mk = [pyStrip s]
  rw [hL]
  rfl

/-- C4 (amended, witness): the all-lowercase example `"done. end"`. -/
theorem claim_C4_witness :
    split_sentences "done. end" = [pyStrip "done. end"] :=
  claim_C4_no_split "done. end" (by decide) (by decide) (by decide)

/-! ## C5 — shape of the sentence list (corrected: whitespace-only
input yields a whitespace-only entry) -/

/-- C5 (counterexample): on the whitespace-only input `"   "` the
fallback branch returns the input itself, so the result contains a
non-empty but whitespace-only entry. -/
theorem claim_C5_cex :
    split_sentences "   " = ["   "] ∧
    ∃ x ∈ split_sentences "   ", x ≠ "" ∧ ∀ c ∈ x.toList, isPySpace c = true := by
  decide

/-- C5 (amended): for every non-empty input string the sentence list
has length at least one and contains no empty entries; entries are
never whitespace-only provided the input has at least one
non-whitespace character; and the list is either the fallback
`[input]` or, in order, the stripped restored segments of the split,
with empties filtered out. -/
theorem claim_C5_entries (s : String) (hne : s ≠ "") :
    1 ≤ (split_sentences s).length ∧
    (∀ x ∈ split_sentences s, x ≠ "") ∧
    ((∃ c ∈ s.toList, isPySpace c = false) →
      ∀ x ∈ split_sentences s, ∃ c ∈ x.toList, isPySpace c = false) ∧
    (split_sentencesL s.toList = [s.toList] ∨
      split_sentencesL s.toList =
        ((splitGo false [] [] (protectText s.toList)).map
          (fun t => stripChars (restoreDots t))).filter (fun t => !t.isEmpty)) := by
  have hneL : s.toList ≠ [] := by
    intro h
    apply hne
    cases s with
    | mk d =>
      have hd : d = [] := h
      rw [hd]
  have hie : s.toList.isEmpty = false := by
    cases hs : s.toList with
    | nil => exact absurd hs hneL
    | cons a as => rfl
  have hstruct : split_sentencesL s.toList = [s.toList] ∨
      (split_sentencesL s.toList =
        ((splitGo false [] [] (protectText s.toList)).map
          (fun t => stripChars (restoreDots t))).filter (fun t => !t.isEmpty) ∧
       (((splitGo false [] [] (protectText s.toList)).map
          (fun t => stripChars (restoreDots t))).filter (fun t => !t.isEmpty)).isEmpty =
         false) := by
    unfold split_sentencesL
    rw [hie]
    simp only [Bool.false_eq_true, if_false]
    split
    · exact Or.inl rfl
    · rename_i hxx
      right
      refine ⟨rfl, ?_⟩
      rcases Bool.eq_false_or_eq_true
        ((((splitGo false [] [] (protectText s.toList)).map
          (fun t => stripChars (restoreDots t))).filter (fun t => !t.isEmpty)).isEmpty)
        with h | h
      · exact absurd h hxx
      · exact h
  have hmemT : ∀ t ∈ split_sentencesL s.toList, t ≠ [] ∧
      ((∃ c ∈ s.toList, isPySpace c = false) → ∃ c ∈ t, isPySpace c = false) := by
    intro t ht
    rcases hstruct with h | ⟨h, _⟩
    · rw [h] at ht
      rcases List.mem_singleton.mp ht with rfl
      exact ⟨hneL, fun hx => hx⟩
    · rw [h] at ht
      obtain ⟨htm, htf⟩ := List.mem_filter.mp ht
      have htne : t ≠ [] := by
        intro he
        rw [he] at htf
        simp at htf
      obtain ⟨seg, _, hseg⟩ := List.mem_map.mp htm
      refine ⟨htne, fun _ => ?_⟩
      rw [← hseg]
      exact stripChars_has_nonws (by rw [hseg]; exact htne)
  have hss : split_sentences s = (split_sentencesL s.toList).map String.mk := rfl
  refine ⟨?_, ?_, ?_, ?_⟩
  · rw [hss]
    rcases hstruct with h | ⟨h, hf⟩
    · rw [h]
      simp
    · rw [h]
      simp only [List.length_map]
      have hfe : (((splitGo false [] [] (protectText s.toList)).map
          (fun t => stripChars (restoreDots t))).filter (fun t => !t.isEmpty)) ≠ [] := by
        intro he
        rw [he] at hf
        cases hf
      exact List.length_pos.mpr hfe
  · intro x hx
    rw [hss] at hx
    obtain ⟨t, htm, rfl⟩ := List.mem_map.mp hx
    intro hxe
    exact (hmemT t htm).1 ((stringMk_eq_empty_iff t).mp hxe)
  · intro hex x hx
    rw [hss] at hx
    obtain ⟨t, htm, rfl⟩ := List.mem_map.mp hx
    have hnw := (hmemT t htm).2 hex
    simpa [strToList_mk] using hnw
  · rcases hstruct with h | ⟨h, _⟩
    · exact Or.inl h
    · exact Or.inr h

/-- C5 (amended, witness): instantiated on `"A. B"`. -/
theorem claim_C5_witness :
    1 ≤ (split_sentences "A. B").length ∧
    (∀ x ∈ split_sentences "A. B", x ≠ "") ∧
    ((∃ c ∈ "A. B".toList, isPySpace c = false) →
      ∀ x ∈ split_sentences "A. B", ∃ c ∈ x.toList, isPySpace c = false) ∧
    (split_sentencesL "A. B".toList = ["A. B".toList] ∨
      split_sentencesL "A. B".toList =
        ((splitGo false [] [] (protectText "A. B".toList)).map
          (fun t => stripChars (restoreDots t))).filter (fun t => !t.isEmpty)) :=
  claim_C5_entries "A. B" (by decide)

end NlpPreprocess
